import Mathlib

/-!
# Verification of the crypto-index calculation engine

A shallow embedding, over exact rational arithmetic, of the index calculation
engine of the `crypto-index-dashboard` repository:

* the capped-weight calculator (`scripts/recalculate-capped-indexes.ts`,
  `calculateCappedWeights`, and `src/lib/weights.ts`, `applyWeightCaps`),
* the divisor/share engine (`calculateInceptionShares`),
* the index valuation function (`calculateIndexValue`, pure summation part),
* the analytics library (`src/lib/analytics.ts`).

JavaScript `Map<string, number>` values are modelled as association lists with
distinct keys (JS maps preserve insertion order; all loop bodies act pointwise,
so the list encoding is faithful).  JavaScript numbers are modelled as exact
rationals (the usual real-arithmetic idealization; the tolerances the spec
states, 1e-4 and 1e-6, absorb float rounding which is not modelled here).
`Math.sqrt` has no rational counterpart, so every quantity the source defines
as a square root is embedded by its *square* (field names carry the suffix
`Sq`); since `Real.sqrt` is strictly monotone on nonnegative arguments, every
claim about such a quantity is stated equivalently on the squares.
Database reads (`prisma.…findMany`) are modelled by passing the fetched rows
as explicit function arguments.
-/

namespace CryptoIndex

/-- Association list modelling a JS `Map<string, number>` (insertion order kept). -/
abbrev QMap := List (String × ℚ)

/-- `Map.get` — first binding for the key, if any.  On maps built by `Map.set`
keys are distinct, so first-match is the unique binding. -/
def getQ : QMap → String → Option ℚ
  | [], _ => none
  | p :: ps, s => if p.1 = s then some p.2 else getQ ps s

/-- `Map.set` — replace the existing binding in place, else append. -/
def setQ (m : QMap) (s : String) (v : ℚ) : QMap :=
  if (getQ m s).isSome then m.map (fun p => if p.1 = s then (s, v) else p)
  else m ++ [(s, v)]

/-- Sum of the values of a map (`for (const w of weights.values()) total += w`). -/
def totalW (ws : QMap) : ℚ := (ws.map Prod.snd).sum

/-- `MAX_CONSTITUENT_WEIGHT = 0.25` (both in `weights.ts` and in the script). -/
def MAX_CONSTITUENT_WEIGHT : ℚ := 1/4

/-- `MAX_CAPPING_ITERATIONS = 10`. -/
def MAX_CAPPING_ITERATIONS : Nat := 10

/-- The entries strictly over the cap (`capped` in both loop bodies). -/
def cappedOf (maxWeight : ℚ) (ws : QMap) : QMap :=
  ws.filter (fun p => decide (maxWeight < p.2))

/-- The entries at or under the cap (`uncapped` in both loop bodies). -/
def uncappedOf (maxWeight : ℚ) (ws : QMap) : QMap :=
  ws.filter (fun p => decide (p.2 ≤ maxWeight))

/-- `excessWeight`: total weight removed by capping. -/
def excessW (maxWeight : ℚ) (ws : QMap) : ℚ :=
  ((cappedOf maxWeight ws).map (fun p => p.2 - maxWeight)).sum

/-- Set every over-cap entry to exactly `maxWeight` (the loop body when there
is no uncapped entry to redistribute to). -/
def capAllStep (maxWeight : ℚ) (ws : QMap) : QMap :=
  ws.map (fun p => if maxWeight < p.2 then (p.1, maxWeight) else p)

/-- The script's cap-and-redistribute step (lines 69–94 of
`recalculate-capped-indexes.ts`): over-cap entries are set to `maxWeight`;
if the uncapped entries' total weight is positive the excess is added to them
in proportion to their current weight, otherwise they are left unchanged. -/
def redistributeScript (maxWeight : ℚ) (ws : QMap) : QMap :=
  let excessWeight := excessW maxWeight ws
  let uncappedTotal := totalW (uncappedOf maxWeight ws)
  ws.map (fun p =>
    if maxWeight < p.2 then (p.1, maxWeight)
    else if 0 < uncappedTotal then
      (p.1, p.2 + excessWeight * (p.2 / uncappedTotal))
    else p)

/-- The normalization step (lines 96–105 / 192–199): if the total drifts from
1 by more than 1e-4, divide every weight by the total. -/
def normalizeStep (ws : QMap) : QMap :=
  let total := totalW ws
  if 1/10000 < |total - 1| then ws.map (fun p => (p.1, p.2 / total)) else ws

/-- The capping loop of `calculateCappedWeights`
(`scripts/recalculate-capped-indexes.ts` lines 52–106).  One fuel unit is one
`for`-iteration; the two `break`s return the current weights.  The JS loop
mutates the map by key; as every update is pointwise in the entry's own weight
and global aggregates, it is rendered as `List.map` over the entries. -/
def cappedLoop (maxWeight : ℚ) : Nat → QMap → QMap
  | 0, ws => ws
  | fuel + 1, ws =>
    if (cappedOf maxWeight ws).isEmpty then ws
    else if (uncappedOf maxWeight ws).isEmpty then capAllStep maxWeight ws
    else cappedLoop maxWeight fuel (normalizeStep (redistributeScript maxWeight ws))

/-- `calculateCappedWeights` (`scripts/recalculate-capped-indexes.ts` lines
32–109): initial weights `marketCap / totalMarketCap`, empty map when the
total market cap is 0, then the iterative capping loop. -/
def calculateCappedWeights (marketCaps : QMap) (maxWeight : ℚ) : QMap :=
  let totalMarketCap := totalW marketCaps
  if totalMarketCap = 0 then []
  else cappedLoop maxWeight MAX_CAPPING_ITERATIONS
    (marketCaps.map (fun p => (p.1, p.2 / totalMarketCap)))

/-- The library's cap-and-redistribute step (`src/lib/weights.ts` lines
162–190): identical to `redistributeScript` except that when the uncapped
entries' total weight is exactly zero the excess is split *equally* among
them (`excessWeight / uncapped.length`, lines 178–183). -/
def redistributeLib (maxWeight : ℚ) (ws : QMap) : QMap :=
  let excessWeight := excessW maxWeight ws
  let uncapped := uncappedOf maxWeight ws
  let uncappedTotal := totalW uncapped
  ws.map (fun p =>
    if maxWeight < p.2 then (p.1, maxWeight)
    else if uncappedTotal = 0 then
      (p.1, p.2 + excessWeight / (uncapped.length : ℚ))
    else (p.1, p.2 + excessWeight * (p.2 / uncappedTotal)))

/-- The capping loop of the library routine `applyWeightCaps`
(`src/lib/weights.ts` lines 144–200).  Identical to `cappedLoop` except for
the redistribution edge case handled in `redistributeLib`. -/
def libCappedLoop (maxWeight : ℚ) : Nat → QMap → QMap
  | 0, ws => ws
  | fuel + 1, ws =>
    if (cappedOf maxWeight ws).isEmpty then ws
    else if (uncappedOf maxWeight ws).isEmpty then capAllStep maxWeight ws
    else libCappedLoop maxWeight fuel (normalizeStep (redistributeLib maxWeight ws))

/-- `applyWeightCaps` (`src/lib/weights.ts` lines 143–204).  The source
mutates the `constituents` array in place; the embedding returns the final
weights of the same entries, in order. -/
def applyWeightCaps (ws : QMap) (maxWeight : ℚ) : QMap :=
  libCappedLoop maxWeight MAX_CAPPING_ITERATIONS ws

/-- One `Price` row as consumed by the inception-share computation. -/
structure Obs where
  symbol : String
  price : ℚ
  marketCap : ℚ
deriving DecidableEq

/-- Lines 133–141 of `recalculate-capped-indexes.ts`: build the inception
price and market-cap maps from the fetched rows (first observation per symbol
wins, only entries with positive price and positive market cap are kept).
The database query's `symbol ∈ tokens` filter is the membership test. -/
def bimStep (tokens : List String) (maps : QMap × QMap) (o : Obs) : QMap × QMap :=
  if o.symbol ∈ tokens ∧ (getQ maps.1 o.symbol).isNone ∧ 0 < o.price ∧ 0 < o.marketCap
  then (maps.1 ++ [(o.symbol, o.price)], maps.2 ++ [(o.symbol, o.marketCap)])
  else maps

def buildInceptionMaps (tokens : List String) (obs : List Obs) : QMap × QMap :=
  obs.foldl (bimStep tokens) ([], [])

/-- `notionalInvestment = 1_000_000` (line 153). -/
def notionalInvestment : ℚ := 1000000

/-- `INDEX_BASE_VALUE = 1000` (`src/lib/tokens.ts` line 183). -/
def INDEX_BASE_VALUE : ℚ := 1000

/-- The share-building loop of `calculateInceptionShares` (lines 151–167):
fold over the configured tokens accumulating the shares map and the inception
portfolio value.  The JS truthiness guard `weight && price && weight > 0 &&
price > 0` is rendered literally. -/
def sharesStep (cappedWeights priceMap : QMap) (acc : QMap × ℚ) (t : String) :
    QMap × ℚ :=
  match getQ cappedWeights t, getQ priceMap t with
  | some w, some p =>
    if w ≠ 0 ∧ p ≠ 0 ∧ 0 < w ∧ 0 < p then
      (setQ acc.1 t (notionalInvestment * w / p),
       acc.2 + notionalInvestment * w / p * p)
    else acc
  | _, _ => acc

def sharesFold (cappedWeights priceMap : QMap) (tokens : List String)
    (acc : QMap × ℚ) : QMap × ℚ :=
  tokens.foldl (sharesStep cappedWeights priceMap) acc

/-- `calculateInceptionShares` (`scripts/recalculate-capped-indexes.ts` lines
114–176), with the database read replaced by the explicit observation list.
Returns `none` (`null`) when no inception data survives the filter or the
inception portfolio value is zero. -/
def calculateInceptionShares (tokens : List String) (obs : List Obs) :
    Option (QMap × ℚ) :=
  let maps := buildInceptionMaps tokens obs
  if maps.2.isEmpty then none
  else
    let cappedWeights := calculateCappedWeights maps.2 MAX_CONSTITUENT_WEIGHT
    let folded := sharesFold cappedWeights maps.1 tokens ([], 0)
    if folded.2 = 0 then none
    else some (folded.1, folded.2 / INDEX_BASE_VALUE)

/-- The portfolio-value summation of `calculateIndexValue` (lines 205–212):
`for (const [symbol, tokenShares] of shares) { const price = priceMap.get(symbol);
if (price && price > 0) portfolioValue += tokenShares * price }`. -/
def valSum (shares priceMap : QMap) : ℚ :=
  shares.foldl (fun acc p =>
    match getQ priceMap p.1 with
    | some price => if price ≠ 0 ∧ 0 < price then acc + p.2 * price else acc
    | none => acc) 0

/-- The pure core of `calculateIndexValue` (`recalculate-capped-indexes.ts`
lines 205–219): value the fixed shares at a price snapshot and divide by the
divisor; `null` when the portfolio value or the divisor is zero. -/
def calculateIndexValuePure (shares : QMap) (divisor : ℚ) (priceMap : QMap) :
    Option ℚ :=
  let portfolioValue := valSum shares priceMap
  if portfolioValue = 0 ∨ divisor = 0 then none
  else some (portfolioValue / divisor)

/-! ## Analytics library (`src/lib/analytics.ts`) -/

/-- `TRADING_DAYS_PER_YEAR = 365` (line 23). -/
def TRADING_DAYS_PER_YEAR : ℚ := 365

/-- `DEFAULT_RISK_FREE_RATE = 0.05` (line 29). -/
def DEFAULT_RISK_FREE_RATE : ℚ := 1/20

/-- One `IndexSnapshot` row: timestamp (milliseconds since epoch, as the JS
`Date.getTime()` value) and index value. -/
structure Snap where
  ts : ℚ
  val : ℚ
deriving DecidableEq, Inhabited

/-- `calculateDailyReturns` (lines 238–255). -/
def calculateDailyReturns (data : List Snap) : List ℚ :=
  if data.length < 2 then []
  else (data.zip data.tail).map (fun p =>
    if p.1.val = 0 then 0 else (p.2.val - p.1.val) / p.1.val)

/-- `mean` (lines 263–266). -/
def mean (values : List ℚ) : ℚ :=
  if values.length = 0 then 0 else values.sum / values.length

/-- Square of `standardDeviation` (lines 275–284).  The source returns
`Math.sqrt(variance)`; this embedding returns `variance` itself (for fewer
than 2 values both are 0, and `(√v)² = v` for the nonnegative `v` below). -/
def standardDeviationSq (values : List ℚ) (isSample : Bool) : ℚ :=
  if values.length < 2 then 0
  else
    let avg := mean values
    let squaredDiffs := values.map (fun v => (v - avg) ^ 2)
    let divisor : ℚ := if isSample then (values.length : ℚ) - 1 else (values.length : ℚ)
    squaredDiffs.sum / divisor

/-- Square of `downsideDeviation` (lines 293–307).  The source returns
`Math.sqrt(meanSquaredDeviation)`; this embedding returns
`meanSquaredDeviation` itself.  Note the guard: fewer than 2 below-threshold
returns yield 0. -/
def downsideDeviationSq (returns : List ℚ) (threshold : ℚ) : ℚ :=
  let negativeReturns := returns.filter (fun r => decide (r < threshold))
  if negativeReturns.length < 2 then 0
  else
    let squaredDeviations := negativeReturns.map (fun r => (min (r - threshold) 0) ^ 2)
    squaredDeviations.sum / (returns.length : ℚ)

/-- `covariance` (lines 316–328): sample covariance with `n - 1` denominator;
0 when the lengths differ or fewer than 2 points.  The indexed loop over the
common length is rendered as a zip. -/
def covariance (x y : List ℚ) : ℚ :=
  if x.length ≠ y.length ∨ x.length < 2 then 0
  else
    let meanX := mean x
    let meanY := mean y
    ((x.zip y).map (fun p => (p.1 - meanX) * (p.2 - meanY))).sum / ((x.length : ℚ) - 1)

/-- `variance` (lines 336–339): `Math.pow(standardDeviation(values), 2)`,
which in exact arithmetic is the sample variance itself. -/
def varianceQ (values : List ℚ) : ℚ :=
  if values.length < 2 then 0 else standardDeviationSq values true

/-- `getPeriodLabel` (lines 347–352). -/
def getPeriodLabel (days : ℤ) : String :=
  if days ≤ 30 then "30d"
  else if days ≤ 90 then "90d"
  else if days ≤ 365 then "1Y"
  else toString days ++ "d"

/-- `VolatilityMetrics` (lines 57–64), with `daily` and `annualized` stored
as their squares. -/
structure VolatilityMetrics where
  dailySq : ℚ
  annualizedSq : ℚ
  dataPoints : ℕ
deriving DecidableEq

/-- `calculateVolatility` (lines 374–383): `annualized = daily * sqrt(365)`,
hence `annualizedSq = dailySq * 365`. -/
def calculateVolatility (returns : List ℚ) : VolatilityMetrics :=
  let dailyVolSq := standardDeviationSq returns true
  ⟨dailyVolSq, dailyVolSq * TRADING_DAYS_PER_YEAR, returns.length⟩

/-- `SharpeMetrics` (lines 69–78).  The ratio is stored as its square; the
source ratio is `(annualizedReturn - riskFreeRate) / annualizedVolatility`,
whose sign is that of `annualizedReturn - riskFreeRate`. -/
structure SharpeMetrics where
  ratioSq : ℚ
  annualizedReturn : ℚ
  annualizedVolatilitySq : ℚ
  riskFreeRate : ℚ
deriving DecidableEq

/-- `calculateSharpeRatio` (lines 409–448).  (The name carries a `Metrics`
suffix only for the mechanical constraints of this development.)  The guard
`volatility.annualized === 0` is equivalently `annualizedSq = 0`. -/
def calculateSharpeMetrics (returns : List ℚ) (riskFreeRate : ℚ) : SharpeMetrics :=
  if returns.length = 0 then ⟨0, 0, 0, riskFreeRate⟩
  else
    let meanDailyReturn := mean returns
    let annualizedReturn := meanDailyReturn * TRADING_DAYS_PER_YEAR
    let volatility := calculateVolatility returns
    if volatility.annualizedSq = 0 then ⟨0, annualizedReturn, 0, riskFreeRate⟩
    else
      ⟨(annualizedReturn - riskFreeRate) ^ 2 / volatility.annualizedSq,
       annualizedReturn, volatility.annualizedSq, riskFreeRate⟩

/-- `SortinoMetrics` (lines 119–128).  `ratioUnbounded = true` models the
source returning the JS `Infinity` sentinel; otherwise the finite ratio is
stored as its square (its sign is that of `annualizedReturn - riskFreeRate`). -/
structure SortinoMetrics where
  ratioUnbounded : Bool
  ratioSq : ℚ
  annualizedReturn : ℚ
  downsideDeviationSq : ℚ
  riskFreeRate : ℚ
deriving DecidableEq

/-- `calculateSortinoRatio` (lines 629–669), squared embedding as above. -/
def calculateSortinoMetrics (returns : List ℚ) (riskFreeRate : ℚ) : SortinoMetrics :=
  if returns.length = 0 then ⟨false, 0, 0, 0, riskFreeRate⟩
  else
    let meanDailyReturn := mean returns
    let annualizedReturn := meanDailyReturn * TRADING_DAYS_PER_YEAR
    let dailyDownsideDevSq := downsideDeviationSq returns 0
    let annualizedDownsideDevSq := dailyDownsideDevSq * TRADING_DAYS_PER_YEAR
    if annualizedDownsideDevSq = 0 then
      if riskFreeRate < annualizedReturn then ⟨true, 0, annualizedReturn, 0, riskFreeRate⟩
      else ⟨false, 0, annualizedReturn, 0, riskFreeRate⟩
    else
      ⟨false, (annualizedReturn - riskFreeRate) ^ 2 / annualizedDownsideDevSq,
       annualizedReturn, annualizedDownsideDevSq, riskFreeRate⟩

/-- `calculateTotalReturn` (lines 677–686). -/
def calculateTotalReturn (data : List Snap) : ℚ :=
  if data.length < 2 then 0
  else
    let startValue := (data.getD 0 default).val
    let endValue := (data.getD (data.length - 1) default).val
    if startValue = 0 then 0 else (endValue - startValue) / startValue

/-- `DrawdownMetrics` (lines 83–98).  The `maxDrawdownPercent` display string
(a `toFixed` formatting of `maxDrawdown`) is presentation-only and omitted. -/
structure DrawdownMetrics where
  maxDrawdown : ℚ
  peakDate : Option ℚ
  troughDate : Option ℚ
  peakValue : Option ℚ
  troughValue : Option ℚ
  drawdownDuration : Option ℤ
deriving DecidableEq

/-- The mutable locals of the `calculateMaxDrawdown` scan (lines 484–490). -/
structure MddState where
  maxDrawdown : ℚ
  peak : ℚ
  peakDate : ℚ
  mddPeakDate : ℚ
  mddTroughDate : ℚ
  mddPeakValue : ℚ
  mddTroughValue : ℚ
deriving DecidableEq

/-- One iteration of the `for (const point of data)` loop (lines 492–510). -/
def mddStep (st : MddState) (point : Snap) : MddState :=
  let st1 := if st.peak < point.val then { st with peak := point.val, peakDate := point.ts }
    else st
  let currentDrawdown := (point.val - st1.peak) / st1.peak
  if currentDrawdown < st1.maxDrawdown then
    { st1 with
      maxDrawdown := currentDrawdown
      mddPeakDate := st1.peakDate
      mddTroughDate := point.ts
      mddPeakValue := st1.peak
      mddTroughValue := point.val }
  else st1

/-- `Math.round` on rationals: round half toward positive infinity. -/
def jsRound (q : ℚ) : ℤ := ⌊q + 1/2⌋

/-- Milliseconds per day, the divisor of the duration computation (line 517). -/
def MS_PER_DAY : ℚ := 86400000

/-- `calculateMaxDrawdown` (lines 471–530).  The initial state is seeded from
`data[0]` and the scan runs over the whole series, `data[0]` included.  The
JS guard on the duration (`peakDate && troughDate`) is always true — `Date`
objects are truthy — so the duration is always computed. -/
def calculateMaxDrawdown (data : List Snap) : DrawdownMetrics :=
  if data.length < 2 then ⟨0, none, none, none, none, none⟩
  else
    match data with
    | [] => ⟨0, none, none, none, none, none⟩
    | d0 :: _ =>
      let init : MddState := ⟨0, d0.val, d0.ts, d0.ts, d0.ts, d0.val, d0.val⟩
      let fin := data.foldl mddStep init
      let duration := jsRound ((fin.mddTroughDate - fin.mddPeakDate) / MS_PER_DAY)
      ⟨fin.maxDrawdown, some fin.mddPeakDate, some fin.mddTroughDate,
       some fin.mddPeakValue, some fin.mddTroughValue, some duration⟩

/-- `BetaMetrics` (lines 103–114).  `correlation` is
`cov / (√indexVar · √benchmarkVar)` in the source and has no rational value;
it is embedded by its square `corrSq` (its sign is that of `cov`).
`rSquared = correlation²` is exactly `corrSq`. -/
structure BetaMetrics where
  beta : ℚ
  corrSq : ℚ
  covariance : ℚ
  benchmarkVariance : ℚ
  rSquared : ℚ
deriving DecidableEq

/-- `calculateBeta` (lines 553–605), with `correlation` embedded by its
square as explained on `BetaMetrics`.  The source guard
`indexVar > 0 && benchmarkVar > 0` selects the formula branch. -/
def calculateBeta (indexReturns benchmarkReturns : List ℚ) : BetaMetrics :=
  let minLength := min indexReturns.length benchmarkReturns.length
  let indexSlice := indexReturns.take minLength
  let benchmarkSlice := benchmarkReturns.take minLength
  if minLength < 2 then ⟨0, 0, 0, 0, 0⟩
  else
    let cov := covariance indexSlice benchmarkSlice
    let benchmarkVar := varianceQ benchmarkSlice
    let indexVar := varianceQ indexSlice
    if benchmarkVar = 0 then ⟨0, 0, cov, 0, 0⟩
    else
      let beta := cov / benchmarkVar
      let corrSq := if 0 < indexVar ∧ 0 < benchmarkVar
        then cov ^ 2 / (indexVar * benchmarkVar) else 0
      ⟨beta, corrSq, cov, benchmarkVar, corrSq⟩

/-- `IndexAnalytics` (lines 133–160).  The wall-clock field `calculatedAt`
(`new Date()`) is not part of the computation and is omitted. -/
structure IndexAnalytics where
  indexName : String
  periodDays : ℤ
  periodLabel : String
  startDate : ℚ
  endDate : ℚ
  totalReturn : ℚ
  volatility : VolatilityMetrics
  sharpe : SharpeMetrics
  maxDrawdown : DrawdownMetrics
  betaVsBTC : Option BetaMetrics
  betaVsETH : Option BetaMetrics
  sortino : SortinoMetrics
deriving DecidableEq

/-- `AnalyticsResult` (lines 178–193): tagged success/failure. -/
inductive AnalyticsResult where
  | failure (error : String) (indexName : String) (periodDays : ℤ)
  | success (data : IndexAnalytics)
deriving DecidableEq

/-- `calculateAnalytics` (lines 717–801), with the three database reads
(`fetchSnapshotData` on the index itself and on the BTC and ETH benchmarks)
replaced by explicit arguments.  The `try/catch` wrapper only converts
database exceptions, which do not exist in the pure model.  The error string
is reproduced up to number formatting. -/
def calculateAnalyticsPure (indexName : String) (periodDays : ℤ)
    (indexData btcData ethData : List Snap) (riskFreeRate : ℚ) : AnalyticsResult :=
  if indexData.length < 2 then
    .failure ("Insufficient data for " ++ indexName ++ ". Found " ++
      toString indexData.length ++ " data points, need at least 2.")
      indexName periodDays
  else
    let returns := calculateDailyReturns indexData
    let btcReturns : Option (List ℚ) :=
      if indexName ≠ "BTC" ∧ 2 ≤ btcData.length
      then some (calculateDailyReturns btcData) else none
    let ethReturns : Option (List ℚ) :=
      if indexName ≠ "ETH" ∧ 2 ≤ ethData.length
      then some (calculateDailyReturns ethData) else none
    .success
      { indexName := indexName
        periodDays := periodDays
        periodLabel := getPeriodLabel periodDays
        startDate := (indexData.getD 0 default).ts
        endDate := (indexData.getD (indexData.length - 1) default).ts
        totalReturn := calculateTotalReturn indexData
        volatility := calculateVolatility returns
        sharpe := calculateSharpeMetrics returns riskFreeRate
        maxDrawdown := calculateMaxDrawdown indexData
        betaVsBTC := btcReturns.map (calculateBeta returns)
        betaVsETH := ethReturns.map (calculateBeta returns)
        sortino := calculateSortinoMetrics returns riskFreeRate }

/-! ## Claim-facing specification formulas

These definitions transcribe the formulas as the specification states them;
the claim theorems below compare the source-translated functions against
them. -/

/-- The spec's downside-deviation formula, squared: the sum of `(r - t)²`
over the returns strictly below the threshold, divided by the *full* sample
count.  (The spec states `downsideDeviation = √` of this.) -/
def specDownsideDeviationSq (returns : List ℚ) (threshold : ℚ) : ℚ :=
  ((returns.filter (fun r => decide (r < threshold))).map
    (fun r => (r - threshold) ^ 2)).sum / (returns.length : ℚ)

/-- The spec's sample covariance: `Σ (xᵢ - x̄)(yᵢ - ȳ) / (n - 1)`. -/
def specSampleCov (x y : List ℚ) : ℚ :=
  (∑ i in Finset.range x.length,
    (x.getD i 0 - mean x) * (y.getD i 0 - mean y)) / ((x.length : ℚ) - 1)

/-- The spec's sample variance: `Σ (xᵢ - x̄)² / (n - 1)`. -/
def specSampleVar (v : List ℚ) : ℚ :=
  (∑ i in Finset.range v.length, (v.getD i 0 - mean v) ^ 2) / ((v.length : ℚ) - 1)

/-- Value of the `i`-th point of a snapshot series. -/
def vAt (data : List Snap) (i : ℕ) : ℚ := (data.getD i default).val

/-- Timestamp of the `i`-th point of a snapshot series. -/
def tsAt (data : List Snap) (i : ℕ) : ℚ := (data.getD i default).ts

/-- The running peak of the claim: the maximum of `v[0..i]`. -/
def runPeak (data : List Snap) : ℕ → ℚ
  | 0 => vAt data 0
  | i + 1 => max (runPeak data i) (vAt data (i + 1))

/-- First index attaining the running peak (the scan only moves the peak on a
strict new high). -/
def argPeak (data : List Snap) : ℕ → ℕ
  | 0 => 0
  | i + 1 => if runPeak data i < vAt data (i + 1) then i + 1 else argPeak data i

/-- The drawdown ratio of the claim: `(v[i] - runningPeak[i]) / runningPeak[i]`. -/
def ddAt (data : List Snap) (i : ℕ) : ℚ :=
  (vAt data i - runPeak data i) / runPeak data i

/-- The most negative drawdown ratio seen through index `i` (the scan starts
from 0, and `ddAt data 0 = 0`, so this is the minimum of the ratios). -/
def minDD (data : List Snap) : ℕ → ℚ
  | 0 => min 0 (ddAt data 0)
  | i + 1 => min (minDD data i) (ddAt data (i + 1))

/-- First index attaining the most negative drawdown ratio (the scan records
the trough only on a strict improvement). -/
def argMin (data : List Snap) : ℕ → ℕ
  | 0 => 0
  | i + 1 => if ddAt data (i + 1) < minDD data i then i + 1 else argMin data i

/-- The spec's drawdown example: values `[100, 110, 90, 95, 120]` at daily
timestamps day 0 … day 4 (in epoch milliseconds). -/
def exDrawdownData : List Snap :=
  [⟨0, 100⟩, ⟨86400000, 110⟩, ⟨172800000, 90⟩, ⟨259200000, 95⟩, ⟨345600000, 120⟩]

/-! ## Lemmas: sums and maps -/

theorem totalW_cons (p : String × ℚ) (ps : QMap) :
    totalW (p :: ps) = p.2 + totalW ps := by
  simp [totalW]

theorem totalW_append (a b : QMap) : totalW (a ++ b) = totalW a + totalW b := by
  simp [totalW]

theorem list_sum_eq_zero_nonneg {l : List ℚ} (h : ∀ x ∈ l, 0 ≤ x)
    (hs : l.sum = 0) : ∀ x ∈ l, x = 0 := by
  induction l with
  | nil => simp
  | cons a as ih =>
    have ha : 0 ≤ a := h a (by simp)
    have has : 0 ≤ as.sum := List.sum_nonneg (fun x hx => h x (by simp [hx]))
    have hsum : a + as.sum = 0 := by simpa using hs
    have ha0 : a = 0 := by linarith
    have has0 : as.sum = 0 := by linarith
    intro x hx
    rcases List.mem_cons.1 hx with rfl | hx
    · exact ha0
    · exact ih (fun x hx => h x (by simp [hx])) has0 x hx

theorem totalW_filter_split (mw : ℚ) (ws : QMap) :
    totalW (cappedOf mw ws) + totalW (uncappedOf mw ws) = totalW ws := by
  induction ws with
  | nil => simp [cappedOf, uncappedOf, totalW]
  | cons p ps ih =>
    by_cases h : mw < p.2
    · simp only [cappedOf, uncappedOf, List.filter_cons, decide_eq_true_eq,
        if_pos h, if_neg (not_le.2 h)] at *
      rw [totalW_cons, totalW_cons]
      linarith
    · simp only [cappedOf, uncappedOf, List.filter_cons, decide_eq_true_eq,
        if_neg h, if_pos (not_lt.1 h)] at *
      rw [totalW_cons, totalW_cons]
      linarith

theorem totalW_map_div (ws : QMap) (t : ℚ) :
    totalW (ws.map (fun p => (p.1, p.2 / t))) = totalW ws / t := by
  induction ws with
  | nil => simp [totalW]
  | cons p ps ih =>
    simp only [List.map_cons, totalW_cons, ih]
    rw [add_div]

theorem excessW_cons_pos {mw : ℚ} {p : String × ℚ} (ps : QMap) (h : mw < p.2) :
    excessW mw (p :: ps) = (p.2 - mw) + excessW mw ps := by
  simp [excessW, cappedOf, List.filter_cons, h]

theorem excessW_cons_neg {mw : ℚ} {p : String × ℚ} (ps : QMap) (h : ¬ mw < p.2) :
    excessW mw (p :: ps) = excessW mw ps := by
  simp [excessW, cappedOf, List.filter_cons, h]

theorem excessW_nonneg (mw : ℚ) (ws : QMap) : 0 ≤ excessW mw ws := by
  refine List.sum_nonneg ?_
  intro x hx
  obtain ⟨q, hq, rfl⟩ := List.mem_map.1 hx
  have := (List.mem_filter.1 hq).2
  have : mw < q.2 := by simpa using this
  linarith

theorem totalW_capAllStep (mw : ℚ) (ws : QMap) :
    totalW (capAllStep mw ws) = totalW ws - excessW mw ws := by
  induction ws with
  | nil => simp [capAllStep, totalW, excessW, cappedOf]
  | cons p ps ih =>
    by_cases h : mw < p.2
    · simp only [capAllStep, List.map_cons, if_pos h] at *
      rw [totalW_cons, totalW_cons, excessW_cons_pos ps h, ih]
      ring
    · simp only [capAllStep, List.map_cons, if_neg h] at *
      rw [totalW_cons, totalW_cons, excessW_cons_neg ps h, ih]
      ring

theorem uncappedOf_cons_pos {mw : ℚ} {p : String × ℚ} (ps : QMap) (h : mw < p.2) :
    uncappedOf mw (p :: ps) = uncappedOf mw ps := by
  simp [uncappedOf, List.filter_cons, not_le.2 h]

theorem uncappedOf_cons_neg {mw : ℚ} {p : String × ℚ} (ps : QMap) (h : ¬ mw < p.2) :
    uncappedOf mw (p :: ps) = p :: uncappedOf mw ps := by
  simp [uncappedOf, List.filter_cons, not_lt.1 h]

theorem totalW_redistribute_aux (mw e u : ℚ) (ws : QMap) :
    totalW (ws.map (fun p =>
        if mw < p.2 then (p.1, mw) else (p.1, p.2 + e * (p.2 / u)))) =
      totalW ws - excessW mw ws + e * (totalW (uncappedOf mw ws) / u) := by
  induction ws with
  | nil => simp [totalW, excessW, cappedOf, uncappedOf]
  | cons p ps ih =>
    by_cases h : mw < p.2
    · simp only [List.map_cons, if_pos h]
      rw [totalW_cons, totalW_cons, excessW_cons_pos ps h, uncappedOf_cons_pos ps h, ih]
      ring
    · simp only [List.map_cons, if_neg h]
      rw [totalW_cons, totalW_cons, excessW_cons_neg ps h, uncappedOf_cons_neg ps h,
        totalW_cons, ih]
      field_simp
      ring

theorem redistributeScript_eq_pos {mw : ℚ} {ws : QMap}
    (h : 0 < totalW (uncappedOf mw ws)) :
    redistributeScript mw ws = ws.map (fun p =>
      if mw < p.2 then (p.1, mw)
      else (p.1, p.2 + excessW mw ws * (p.2 / totalW (uncappedOf mw ws)))) := by
  simp only [redistributeScript, h, if_true]

theorem redistributeScript_eq_neg {mw : ℚ} {ws : QMap}
    (h : ¬ 0 < totalW (uncappedOf mw ws)) :
    redistributeScript mw ws = capAllStep mw ws := by
  simp only [redistributeScript, capAllStep, h, if_false]

theorem totalW_redistributeScript_pos {mw : ℚ} {ws : QMap}
    (h : 0 < totalW (uncappedOf mw ws)) :
    totalW (redistributeScript mw ws) = totalW ws := by
  rw [redistributeScript_eq_pos h, totalW_redistribute_aux,
    div_self (ne_of_gt h), mul_one]
  ring

theorem normalizeStep_of_le {ws : QMap} (h : |totalW ws - 1| ≤ 1/10000) :
    normalizeStep ws = ws := by
  simp only [normalizeStep, if_neg (not_lt.2 h)]

theorem normalizeStep_of_gt {ws : QMap} (h : 1/10000 < |totalW ws - 1|) :
    normalizeStep ws = ws.map (fun p => (p.1, p.2 / totalW ws)) := by
  simp only [normalizeStep, if_pos h]

theorem totalW_nonneg {ws : QMap} (h : ∀ p ∈ ws, 0 ≤ p.2) : 0 ≤ totalW ws := by
  refine List.sum_nonneg ?_
  intro x hx
  obtain ⟨q, hq, rfl⟩ := List.mem_map.1 hx
  exact h q hq

theorem totalW_pos {ws : QMap} (h : ∀ p ∈ ws, 0 < p.2) (hne : ws ≠ []) :
    0 < totalW ws := by
  refine List.sum_pos _ ?_ ?_
  · intro x hx
    obtain ⟨q, hq, rfl⟩ := List.mem_map.1 hx
    exact h q hq
  · simpa using hne

theorem capAllStep_nonneg {mw : ℚ} {ws : QMap} (hmw : 0 ≤ mw)
    (h : ∀ p ∈ ws, 0 ≤ p.2) : ∀ p ∈ capAllStep mw ws, 0 ≤ p.2 := by
  intro p hp
  obtain ⟨q, hq, rfl⟩ := List.mem_map.1 hp
  by_cases h2 : mw < q.2 <;> simp only [if_pos, if_neg, h2, if_true, if_false]
  · exact hmw
  · exact h q hq

theorem capAllStep_pos {mw : ℚ} {ws : QMap} (hmw : 0 < mw)
    (h : ∀ p ∈ ws, 0 < p.2) : ∀ p ∈ capAllStep mw ws, 0 < p.2 := by
  intro p hp
  obtain ⟨q, hq, rfl⟩ := List.mem_map.1 hp
  by_cases h2 : mw < q.2 <;> simp only [if_pos, if_neg, h2, if_true, if_false]
  · exact hmw
  · exact h q hq

theorem redistributeScript_nonneg {mw : ℚ} {ws : QMap} (hmw : 0 ≤ mw)
    (h : ∀ p ∈ ws, 0 ≤ p.2) : ∀ p ∈ redistributeScript mw ws, 0 ≤ p.2 := by
  by_cases hU : 0 < totalW (uncappedOf mw ws)
  · rw [redistributeScript_eq_pos hU]
    intro p hp
    obtain ⟨q, hq, rfl⟩ := List.mem_map.1 hp
    by_cases h2 : mw < q.2 <;> simp only [h2, if_true, if_false]
    · exact hmw
    · have : 0 ≤ excessW mw ws * (q.2 / totalW (uncappedOf mw ws)) :=
        mul_nonneg (excessW_nonneg mw ws) (div_nonneg (h q hq) (le_of_lt hU))
      have := h q hq
      linarith
  · rw [redistributeScript_eq_neg hU]
    exact capAllStep_nonneg hmw h

theorem redistributeScript_pos {mw : ℚ} {ws : QMap} (hmw : 0 < mw)
    (h : ∀ p ∈ ws, 0 < p.2) : ∀ p ∈ redistributeScript mw ws, 0 < p.2 := by
  by_cases hU : 0 < totalW (uncappedOf mw ws)
  · rw [redistributeScript_eq_pos hU]
    intro p hp
    obtain ⟨q, hq, rfl⟩ := List.mem_map.1 hp
    by_cases h2 : mw < q.2 <;> simp only [h2, if_true, if_false]
    · exact hmw
    · have : 0 ≤ excessW mw ws * (q.2 / totalW (uncappedOf mw ws)) :=
        mul_nonneg (excessW_nonneg mw ws) (div_nonneg (le_of_lt (h q hq)) (le_of_lt hU))
      have := h q hq
      linarith
  · rw [redistributeScript_eq_neg hU]
    exact capAllStep_pos hmw h

theorem normalizeStep_nonneg {ws : QMap} (h : ∀ p ∈ ws, 0 ≤ p.2) :
    ∀ p ∈ normalizeStep ws, 0 ≤ p.2 := by
  by_cases hc : 1/10000 < |totalW ws - 1|
  · rw [normalizeStep_of_gt hc]
    intro p hp
    obtain ⟨q, hq, rfl⟩ := List.mem_map.1 hp
    exact div_nonneg (h q hq) (totalW_nonneg h)
  · rw [normalizeStep_of_le (not_lt.1 hc)]
    exact h

theorem normalizeStep_pos {ws : QMap} (h : ∀ p ∈ ws, 0 < p.2) (hne : ws ≠ []) :
    ∀ p ∈ normalizeStep ws, 0 < p.2 := by
  by_cases hc : 1/10000 < |totalW ws - 1|
  · rw [normalizeStep_of_gt hc]
    intro p hp
    obtain ⟨q, hq, rfl⟩ := List.mem_map.1 hp
    exact div_pos (h q hq) (totalW_pos h hne)
  · rw [normalizeStep_of_le (not_lt.1 hc)]
    exact h

theorem cappedLoop_nonneg {mw : ℚ} (hmw : 0 ≤ mw) :
    ∀ (fuel : ℕ) (ws : QMap), (∀ p ∈ ws, 0 ≤ p.2) →
      ∀ p ∈ cappedLoop mw fuel ws, 0 ≤ p.2 := by
  intro fuel
  induction fuel with
  | zero => intro ws h; exact h
  | succ n ih =>
    intro ws h
    rw [cappedLoop]
    split_ifs with h1 h2
    · exact h
    · exact capAllStep_nonneg hmw h
    · exact ih _ (normalizeStep_nonneg (redistributeScript_nonneg hmw h))

theorem redistributeScript_ne_nil {mw : ℚ} {ws : QMap} (h : ws ≠ []) :
    redistributeScript mw ws ≠ [] := by
  by_cases hU : 0 < totalW (uncappedOf mw ws)
  · rw [redistributeScript_eq_pos hU]
    simpa using h
  · rw [redistributeScript_eq_neg hU, capAllStep]
    simpa using h

theorem ws_ne_nil_of_capped {mw : ℚ} {ws : QMap}
    (h : ¬ (cappedOf mw ws).isEmpty = true) : ws ≠ [] := by
  intro hw
  subst hw
  simp [cappedOf] at h

theorem cappedLoop_pos {mw : ℚ} (hmw : 0 < mw) :
    ∀ (fuel : ℕ) (ws : QMap), (∀ p ∈ ws, 0 < p.2) →
      ∀ p ∈ cappedLoop mw fuel ws, 0 < p.2 := by
  intro fuel
  induction fuel with
  | zero => intro ws h; exact h
  | succ n ih =>
    intro ws h
    rw [cappedLoop]
    split_ifs with h1 h2
    · exact h
    · exact capAllStep_pos hmw h
    · exact ih _ (normalizeStep_pos (redistributeScript_pos hmw h)
        (redistributeScript_ne_nil (ws_ne_nil_of_capped h1)))

theorem uncapped_val_eq_zero {mw : ℚ} {ws : QMap}
    (h : ∀ p ∈ ws, 0 ≤ p.2) (hU : ¬ 0 < totalW (uncappedOf mw ws)) :
    ∀ p ∈ uncappedOf mw ws, p.2 = 0 := by
  have hun : ∀ p ∈ uncappedOf mw ws, 0 ≤ p.2 := by
    intro p hp
    exact h p (List.mem_filter.1 hp).1
  have hz : totalW (uncappedOf mw ws) = 0 :=
    le_antisymm (not_lt.1 hU) (totalW_nonneg hun)
  intro p hp
  refine list_sum_eq_zero_nonneg ?_ hz p.2 (List.mem_map_of_mem Prod.snd hp)
  intro x hx
  obtain ⟨q, hq, rfl⟩ := List.mem_map.1 hx
  exact hun q hq

theorem cappedLoop_sum_inv {mw : ℚ} (hmw : 0 < mw) :
    ∀ (fuel : ℕ) (ws : QMap), (∀ p ∈ ws, 0 ≤ p.2) →
      |totalW ws - 1| ≤ 1/10000 → (∃ p ∈ ws, p.2 ≤ mw) →
      |totalW (cappedLoop mw fuel ws) - 1| ≤ 1/10000 := by
  intro fuel
  induction fuel with
  | zero => intro ws _ hsum _; exact hsum
  | succ n ih =>
    intro ws h hsum hex
    rw [cappedLoop]
    split_ifs with h1 h2
    · exact hsum
    · exfalso
      obtain ⟨q, hq, hqle⟩ := hex
      have : q ∈ uncappedOf mw ws := by
        simp [uncappedOf, List.mem_filter, hq, hqle]
      rw [List.isEmpty_iff] at h2
      rw [h2] at this
      exact absurd this (List.not_mem_nil q)
    · have hcap : cappedOf mw ws ≠ [] := by
        intro hc
        exact h1 (by simp [hc])
      have huncap : uncappedOf mw ws ≠ [] := by
        intro hc
        exact h2 (by simp [hc])
      by_cases hU : 0 < totalW (uncappedOf mw ws)
      · have ht : |totalW (redistributeScript mw ws) - 1| ≤ 1/10000 := by
          rw [totalW_redistributeScript_pos hU]
          exact hsum
        rw [normalizeStep_of_le ht]
        refine ih _ (redistributeScript_nonneg (le_of_lt hmw) h) ht ?_
        obtain ⟨q, hq⟩ := List.exists_mem_of_ne_nil _ hcap
        have hqws : q ∈ ws := (List.mem_filter.1 hq).1
        have hqgt : mw < q.2 := by
          have := (List.mem_filter.1 hq).2
          simpa using this
        refine ⟨(q.1, mw), ?_, le_refl mw⟩
        rw [redistributeScript_eq_pos hU]
        have := List.mem_map_of_mem (fun p =>
          if mw < p.2 then (p.1, mw)
          else (p.1, p.2 + excessW mw ws * (p.2 / totalW (uncappedOf mw ws)))) hqws
        simpa [hqgt] using this
      · rw [redistributeScript_eq_neg hU]
        -- the uncapped entries all have weight zero here
        obtain ⟨q, hq⟩ := List.exists_mem_of_ne_nil _ huncap
        have hqws : q ∈ ws := (List.mem_filter.1 hq).1
        have hqle : q.2 ≤ mw := by
          have := (List.mem_filter.1 hq).2
          simpa using this
        have hq0 : q.2 = 0 := uncapped_val_eq_zero h hU q hq
        have hqmem : q ∈ capAllStep mw ws := by
          have := List.mem_map_of_mem (fun p =>
            if mw < p.2 then (p.1, mw) else p) hqws
          simpa [not_lt.2 hqle, capAllStep] using this
        -- a capped entry witnesses positivity of the new total
        obtain ⟨c, hc⟩ := List.exists_mem_of_ne_nil _ hcap
        have hcws : c ∈ ws := (List.mem_filter.1 hc).1
        have hcgt : mw < c.2 := by
          have := (List.mem_filter.1 hc).2
          simpa using this
        have hcmem : (c.1, mw) ∈ capAllStep mw ws := by
          have := List.mem_map_of_mem (fun p =>
            if mw < p.2 then (p.1, mw) else p) hcws
          simpa [hcgt, capAllStep] using this
        have hnn : ∀ p ∈ capAllStep mw ws, 0 ≤ p.2 :=
          capAllStep_nonneg (le_of_lt hmw) h
        have htpos : 0 < totalW (capAllStep mw ws) := by
          have hle : mw ≤ totalW (capAllStep mw ws) := by
            refine List.single_le_sum ?_ mw
              (List.mem_map_of_mem Prod.snd hcmem)
            intro x hx
            obtain ⟨r, hr, rfl⟩ := List.mem_map.1 hx
            exact hnn r hr
          linarith
        by_cases hn : 1/10000 < |totalW (capAllStep mw ws) - 1|
        · rw [normalizeStep_of_gt hn]
          have hsum' : |totalW ((capAllStep mw ws).map
              (fun p => (p.1, p.2 / totalW (capAllStep mw ws)))) - 1| ≤ 1/10000 := by
            rw [totalW_map_div, div_self (ne_of_gt htpos)]
            simp
          refine ih _ ?_ hsum' ?_
          · intro p hp
            obtain ⟨r, hr, rfl⟩ := List.mem_map.1 hp
            exact div_nonneg (hnn r hr) (le_of_lt htpos)
          · refine ⟨(q.1, q.2 / totalW (capAllStep mw ws)),
              List.mem_map_of_mem _ hqmem, ?_⟩
            rw [hq0, zero_div]
            exact le_of_lt hmw
        · rw [normalizeStep_of_le (not_lt.1 hn)]
          exact ih _ hnn (not_lt.1 hn) ⟨q, hqmem, hqle⟩

/-! ## Agreement of the two capping loops on positive weights -/

theorem redistribute_agree {mw : ℚ} {ws : QMap} (h : ∀ p ∈ ws, 0 < p.2)
    (huncap : uncappedOf mw ws ≠ []) :
    redistributeScript mw ws = redistributeLib mw ws := by
  have hU : 0 < totalW (uncappedOf mw ws) := by
    refine totalW_pos ?_ huncap
    intro p hp
    exact h p (List.mem_filter.1 hp).1
  rw [redistributeScript_eq_pos hU]
  simp only [redistributeLib, ne_of_gt hU, if_false]

theorem loops_agree {mw : ℚ} (hmw : 0 < mw) :
    ∀ (fuel : ℕ) (ws : QMap), (∀ p ∈ ws, 0 < p.2) →
      cappedLoop mw fuel ws = libCappedLoop mw fuel ws := by
  intro fuel
  induction fuel with
  | zero => intro ws _; rfl
  | succ n ih =>
    intro ws h
    rw [cappedLoop, libCappedLoop]
    split_ifs with h1 h2
    · rfl
    · rfl
    · have huncap : uncappedOf mw ws ≠ [] := by
        intro hc
        exact h2 (by simp [hc])
      rw [← redistribute_agree h huncap]
      exact ih _ (normalizeStep_pos (redistributeScript_pos hmw h)
        (redistributeScript_ne_nil (ws_ne_nil_of_capped h1)))

/-! ## Unfolding lemmas for concrete loop evaluation -/

theorem cappedLoop_break_capped_empty {mw : ℚ} {ws : QMap}
    (h1 : (cappedOf mw ws).isEmpty = true) :
    ∀ fuel, cappedLoop mw fuel ws = ws := by
  intro fuel
  cases fuel with
  | zero => rfl
  | succ n => rw [cappedLoop, if_pos h1]

theorem cappedLoop_break_uncapped_empty {mw : ℚ} {ws : QMap} (fuel : ℕ)
    (h1 : (cappedOf mw ws).isEmpty = false)
    (h2 : (uncappedOf mw ws).isEmpty = true) :
    cappedLoop mw (fuel + 1) ws = capAllStep mw ws := by
  rw [cappedLoop, if_neg (by simp [h1]), if_pos h2]

theorem cappedLoop_step {mw : ℚ} {ws : QMap} (fuel : ℕ)
    (h1 : (cappedOf mw ws).isEmpty = false)
    (h2 : (uncappedOf mw ws).isEmpty = false) :
    cappedLoop mw (fuel + 1) ws =
      cappedLoop mw fuel (normalizeStep (redistributeScript mw ws)) := by
  rw [cappedLoop, if_neg (by simp [h1]), if_neg (by simp [h2])]

theorem libCappedLoop_break_capped_empty {mw : ℚ} {ws : QMap}
    (h1 : (cappedOf mw ws).isEmpty = true) :
    ∀ fuel, libCappedLoop mw fuel ws = ws := by
  intro fuel
  cases fuel with
  | zero => rfl
  | succ n => rw [libCappedLoop, if_pos h1]

theorem libCappedLoop_step {mw : ℚ} {ws : QMap} (fuel : ℕ)
    (h1 : (cappedOf mw ws).isEmpty = false)
    (h2 : (uncappedOf mw ws).isEmpty = false) :
    libCappedLoop mw (fuel + 1) ws =
      libCappedLoop mw fuel (normalizeStep (redistributeLib mw ws)) := by
  rw [libCappedLoop, if_neg (by simp [h1]), if_neg (by simp [h2])]

/-! ## Claim theorems: weight calculator (C2, C3, C9) -/

/-- C2 (corrected).  Weight normalization: for a non-empty market-cap map
with nonnegative caps, positive total and `maxWeight ∈ (0,1]`, every weight
returned by `calculateCappedWeights` is ≥ 0; and the weights sum to 1 within
1e-4 *provided* at least one constituent's raw weight is at or below the cap.
The claim's degenerate case — every raw weight strictly above the cap — is
excluded, because there the loop breaks right after capping every entry and
the returned weights sum to `n·maxWeight` (see the counterexample). -/
theorem claim_C2_weight_normalization (marketCaps : QMap) (mw : ℚ)
    (hnn : ∀ p ∈ marketCaps, 0 ≤ p.2) (hT : 0 < totalW marketCaps)
    (hmw0 : 0 < mw) (_hmw1 : mw ≤ 1) :
    (∀ p ∈ calculateCappedWeights marketCaps mw, 0 ≤ p.2) ∧
    ((∃ p ∈ marketCaps, p.2 / totalW marketCaps ≤ mw) →
      |totalW (calculateCappedWeights marketCaps mw) - 1| ≤ 1/10000) := by
  have hT0 : totalW marketCaps ≠ 0 := ne_of_gt hT
  have hinit : ∀ p ∈ marketCaps.map (fun p => (p.1, p.2 / totalW marketCaps)),
      0 ≤ p.2 := by
    intro p hp
    obtain ⟨q, hq, rfl⟩ := List.mem_map.1 hp
    exact div_nonneg (hnn q hq) (le_of_lt hT)
  have hsum : |totalW (marketCaps.map
      (fun p => (p.1, p.2 / totalW marketCaps))) - 1| ≤ 1/10000 := by
    rw [totalW_map_div, div_self hT0]
    simp
  constructor
  · simp only [calculateCappedWeights, if_neg hT0]
    exact cappedLoop_nonneg (le_of_lt hmw0) _ _ hinit
  · intro hex
    simp only [calculateCappedWeights, if_neg hT0]
    refine cappedLoop_sum_inv hmw0 _ _ hinit hsum ?_
    obtain ⟨q, hq, hle⟩ := hex
    exact ⟨(q.1, q.2 / totalW marketCaps), List.mem_map_of_mem _ hq, hle⟩

/-- Witness for C2 at the concrete input `{A: 3, B: 1}` with cap 1/2. -/
theorem claim_C2_witness :
    (∀ p ∈ calculateCappedWeights [("A", 3), ("B", 1)] (1/2), 0 ≤ p.2) ∧
    |totalW (calculateCappedWeights [("A", 3), ("B", 1)] (1/2)) - 1| ≤ 1/10000 := by
  have h := claim_C2_weight_normalization [("A", 3), ("B", 1)] (1/2)
    (by norm_num) (by norm_num [totalW]) (by norm_num) (by norm_num)
  exact ⟨h.1, h.2 (by norm_num [totalW])⟩

/-- C2 counterexample: with `{A: 1, B: 1}` and cap 0.25 every raw weight
(1/2 each) exceeds the cap, the loop breaks after capping both entries, and
the returned weights sum to 1/2 — not within 1e-4 of 1. -/
theorem claim_C2_counterexample :
    totalW (calculateCappedWeights [("A", 1), ("B", 1)] (1/4)) = 1/2 ∧
    ¬ |totalW (calculateCappedWeights [("A", 1), ("B", 1)] (1/4)) - 1| ≤ 1/10000 := by
  have h0 : calculateCappedWeights [("A", 1), ("B", 1)] (1/4) =
      cappedLoop (1/4) MAX_CAPPING_ITERATIONS [("A", (1:ℚ)/2), ("B", (1:ℚ)/2)] := by
    norm_num [calculateCappedWeights, totalW]
  have h1 : (cappedOf (1/4 : ℚ) [("A", (1:ℚ)/2), ("B", (1:ℚ)/2)]).isEmpty = false := by
    norm_num [cappedOf]
  have h2 : (uncappedOf (1/4 : ℚ) [("A", (1:ℚ)/2), ("B", (1:ℚ)/2)]).isEmpty = true := by
    norm_num [uncappedOf]
  have h3 : cappedLoop (1/4) MAX_CAPPING_ITERATIONS [("A", (1:ℚ)/2), ("B", (1:ℚ)/2)] =
      capAllStep (1/4) [("A", (1:ℚ)/2), ("B", (1:ℚ)/2)] :=
    cappedLoop_break_uncapped_empty 9 h1 h2
  have h4 : capAllStep (1/4) [("A", (1:ℚ)/2), ("B", (1:ℚ)/2)] =
      [("A", (1:ℚ)/4), ("B", (1:ℚ)/4)] := by
    norm_num [capAllStep]
  have ht : totalW [("A", (1:ℚ)/4), ("B", (1:ℚ)/4)] = 1/2 := by norm_num [totalW]
  rw [h0, h3, h4, ht]
  have habs : |(1:ℚ)/2 - 1| = 1/2 := by
    rw [abs_of_nonpos (by norm_num)]
    norm_num
  rw [habs]
  norm_num

/-- C3 (corrected).  Amended single-constituent behaviour: a singleton map
with positive market cap and cap 0.25 is returned with weight **0.25** (the
cap), not 1.0.  The raw weight 1 exceeds the cap, the constituent is capped,
and the loop breaks because no uncapped constituent exists (`uncapped.length
=== 0`), leaving the weight at `maxWeight`. -/
theorem claim_C3_singleton_amended (s : String) (mc : ℚ) (hmc : 0 < mc) :
    calculateCappedWeights [(s, mc)] MAX_CONSTITUENT_WEIGHT =
      [(s, MAX_CONSTITUENT_WEIGHT)] := by
  have hmc0 : mc ≠ 0 := ne_of_gt hmc
  have hT : totalW [(s, mc)] = mc := by simp [totalW]
  have h0 : calculateCappedWeights [(s, mc)] MAX_CONSTITUENT_WEIGHT =
      cappedLoop MAX_CONSTITUENT_WEIGHT MAX_CAPPING_ITERATIONS [(s, (1 : ℚ))] := by
    simp only [calculateCappedWeights, hT, if_neg hmc0, List.map_cons, List.map_nil,
      div_self hmc0]
  have h1 : (cappedOf MAX_CONSTITUENT_WEIGHT [(s, (1 : ℚ))]).isEmpty = false := by
    norm_num [cappedOf, MAX_CONSTITUENT_WEIGHT]
  have h2 : (uncappedOf MAX_CONSTITUENT_WEIGHT [(s, (1 : ℚ))]).isEmpty = true := by
    norm_num [uncappedOf, MAX_CONSTITUENT_WEIGHT]
  have h3 : cappedLoop MAX_CONSTITUENT_WEIGHT MAX_CAPPING_ITERATIONS [(s, (1 : ℚ))] =
      capAllStep MAX_CONSTITUENT_WEIGHT [(s, (1 : ℚ))] :=
    cappedLoop_break_uncapped_empty 9 h1 h2
  rw [h0, h3]
  norm_num [capAllStep, MAX_CONSTITUENT_WEIGHT]

/-- Witness for C3 at the spec's own input `{A: 100}`. -/
theorem claim_C3_witness :
    calculateCappedWeights [("A", 100)] MAX_CONSTITUENT_WEIGHT =
      [("A", MAX_CONSTITUENT_WEIGHT)] :=
  claim_C3_singleton_amended "A" 100 (by norm_num)

/-- C3 counterexample: `calculateCappedWeights {A: 100} 0.25` returns weight
1/4 for `A`, not the claimed 1.0. -/
theorem claim_C3_counterexample :
    getQ (calculateCappedWeights [("A", 100)] MAX_CONSTITUENT_WEIGHT) "A" = some (1/4) ∧
    getQ (calculateCappedWeights [("A", 100)] MAX_CONSTITUENT_WEIGHT) "A" ≠ some 1 := by
  have h0 : calculateCappedWeights [("A", 100)] MAX_CONSTITUENT_WEIGHT =
      cappedLoop MAX_CONSTITUENT_WEIGHT MAX_CAPPING_ITERATIONS [("A", (1 : ℚ))] := by
    norm_num [calculateCappedWeights, totalW]
  have h1 : (cappedOf MAX_CONSTITUENT_WEIGHT [("A", (1 : ℚ))]).isEmpty = false := by
    norm_num [cappedOf, MAX_CONSTITUENT_WEIGHT]
  have h2 : (uncappedOf MAX_CONSTITUENT_WEIGHT [("A", (1 : ℚ))]).isEmpty = true := by
    norm_num [uncappedOf, MAX_CONSTITUENT_WEIGHT]
  have h3 : cappedLoop MAX_CONSTITUENT_WEIGHT MAX_CAPPING_ITERATIONS [("A", (1 : ℚ))] =
      capAllStep MAX_CONSTITUENT_WEIGHT [("A", (1 : ℚ))] :=
    cappedLoop_break_uncapped_empty 9 h1 h2
  rw [h0, h3]
  norm_num [capAllStep, getQ, MAX_CONSTITUENT_WEIGHT]

/-- C9 (corrected).  Amended implementation agreement: when every market cap
is positive (so no weight can ever be zero and the zero-uncapped-total branch
in which the two routines differ is unreachable), the script routine
`calculateCappedWeights` and the library routine `applyWeightCaps` (applied
to the initial weights `marketCap / totalMarketCap`) return the same weight
for every symbol.  With a zero-market-cap constituent they diverge (see the
counterexample). -/
theorem claim_C9_agreement_amended (marketCaps : QMap) (mw : ℚ)
    (hpos : ∀ p ∈ marketCaps, 0 < p.2) (hmw : 0 < mw) :
    calculateCappedWeights marketCaps mw =
      applyWeightCaps (marketCaps.map (fun p => (p.1, p.2 / totalW marketCaps))) mw := by
  rcases eq_or_ne marketCaps [] with rfl | hne
  · have l : calculateCappedWeights ([] : QMap) mw = [] := by
      norm_num [calculateCappedWeights, totalW]
    have r : applyWeightCaps (([] : QMap).map
        (fun p => (p.1, p.2 / totalW ([] : QMap)))) mw = [] := by
      simp only [List.map_nil, applyWeightCaps]
      have hc : (cappedOf mw ([] : QMap)).isEmpty = true := rfl
      exact libCappedLoop_break_capped_empty hc MAX_CAPPING_ITERATIONS
    rw [l, r]
  · have hT : 0 < totalW marketCaps := totalW_pos hpos hne
    have hinit : ∀ p ∈ marketCaps.map (fun p => (p.1, p.2 / totalW marketCaps)),
        0 < p.2 := by
      intro p hp
      obtain ⟨q, hq, rfl⟩ := List.mem_map.1 hp
      exact div_pos (hpos q hq) hT
    simp only [calculateCappedWeights, if_neg (ne_of_gt hT), applyWeightCaps]
    exact loops_agree hmw _ _ hinit

/-- Witness for C9 at the concrete input `{A: 3, B: 1}` with cap 1/2. -/
theorem claim_C9_witness :
    calculateCappedWeights [("A", 3), ("B", 1)] (1/2) =
      applyWeightCaps ([("A", 3), ("B", 1)].map
        (fun p => (p.1, p.2 / totalW [("A", 3), ("B", 1)]))) (1/2) :=
  claim_C9_agreement_amended [("A", 3), ("B", 1)] (1/2) (by norm_num) (by norm_num)

/-- One script iteration on `{A: 1, B: 0}` with cap 1/4 returns to the same
state: `A` is capped to 1/4, the uncapped total is 0 so nothing is
redistributed, and normalization rescales `A` back to 1. -/
theorem c9aux_script_body :
    normalizeStep (redistributeScript (1/4) [("A", (1:ℚ)), ("B", 0)]) =
      [("A", (1:ℚ)), ("B", 0)] := by
  have hred : redistributeScript (1/4) [("A", (1:ℚ)), ("B", 0)] =
      [("A", (1:ℚ)/4), ("B", 0)] := by
    norm_num [redistributeScript, cappedOf, uncappedOf, excessW, totalW]
  have htot : totalW [("A", (1:ℚ)/4), ("B", 0)] = 1/4 := by norm_num [totalW]
  have hc : 1/10000 < |totalW [("A", (1:ℚ)/4), ("B", 0)] - 1| := by
    rw [htot, show |(1:ℚ)/4 - 1| = 3/4 from by rw [abs_of_nonpos (by norm_num)]; norm_num]
    norm_num
  rw [hred, normalizeStep_of_gt hc, htot]
  norm_num

/-- The script loop on `{A: 1, B: 0}` is stuck at that state at every fuel. -/
theorem c9aux_script_loop :
    ∀ n, cappedLoop (1/4) n [("A", (1:ℚ)), ("B", 0)] = [("A", (1:ℚ)), ("B", 0)] := by
  intro n
  induction n with
  | zero => rfl
  | succ k ih =>
    have h1 : (cappedOf (1/4 : ℚ) [("A", (1:ℚ)), ("B", 0)]).isEmpty = false := by
      norm_num [cappedOf]
    have h2 : (uncappedOf (1/4 : ℚ) [("A", (1:ℚ)), ("B", 0)]).isEmpty = false := by
      norm_num [uncappedOf]
    rw [cappedLoop_step k h1 h2, c9aux_script_body, ih]

/-- One library iteration on `{A: 1, B: 0}`: `A` capped to 1/4, the excess
3/4 given *equally* to the zero-weight `B`. -/
theorem c9aux_lib_body0 :
    normalizeStep (redistributeLib (1/4) [("A", (1:ℚ)), ("B", 0)]) =
      [("A", (1:ℚ)/4), ("B", (3:ℚ)/4)] := by
  have hred : redistributeLib (1/4) [("A", (1:ℚ)), ("B", 0)] =
      [("A", (1:ℚ)/4), ("B", (3:ℚ)/4)] := by
    norm_num [redistributeLib, cappedOf, uncappedOf, excessW, totalW]
  rw [hred]
  exact normalizeStep_of_le (by norm_num [totalW])

/-- One library iteration on `{A: 1/4, B: 3/4}` swaps the weights. -/
theorem c9aux_lib_body1 :
    normalizeStep (redistributeLib (1/4) [("A", (1:ℚ)/4), ("B", (3:ℚ)/4)]) =
      [("A", (3:ℚ)/4), ("B", (1:ℚ)/4)] := by
  have hred : redistributeLib (1/4) [("A", (1:ℚ)/4), ("B", (3:ℚ)/4)] =
      [("A", (3:ℚ)/4), ("B", (1:ℚ)/4)] := by
    norm_num [redistributeLib, cappedOf, uncappedOf, excessW, totalW]
  rw [hred]
  exact normalizeStep_of_le (by norm_num [totalW])

/-- One library iteration on `{A: 3/4, B: 1/4}` swaps the weights back. -/
theorem c9aux_lib_body2 :
    normalizeStep (redistributeLib (1/4) [("A", (3:ℚ)/4), ("B", (1:ℚ)/4)]) =
      [("A", (1:ℚ)/4), ("B", (3:ℚ)/4)] := by
  have hred : redistributeLib (1/4) [("A", (3:ℚ)/4), ("B", (1:ℚ)/4)] =
      [("A", (1:ℚ)/4), ("B", (3:ℚ)/4)] := by
    norm_num [redistributeLib, cappedOf, uncappedOf, excessW, totalW]
  rw [hred]
  exact normalizeStep_of_le (by norm_num [totalW])

/-- The library loop oscillates with period 2 from `{A: 1/4, B: 3/4}`; at any
odd fuel it stops on `{A: 3/4, B: 1/4}`. -/
theorem c9aux_lib_odd :
    ∀ n, libCappedLoop (1/4) (2 * n + 1) [("A", (1:ℚ)/4), ("B", (3:ℚ)/4)] =
      [("A", (3:ℚ)/4), ("B", (1:ℚ)/4)] := by
  have h1a : (cappedOf (1/4 : ℚ) [("A", (1:ℚ)/4), ("B", (3:ℚ)/4)]).isEmpty = false := by
    norm_num [cappedOf]
  have h2a : (uncappedOf (1/4 : ℚ) [("A", (1:ℚ)/4), ("B", (3:ℚ)/4)]).isEmpty = false := by
    norm_num [uncappedOf]
  have h1b : (cappedOf (1/4 : ℚ) [("A", (3:ℚ)/4), ("B", (1:ℚ)/4)]).isEmpty = false := by
    norm_num [cappedOf]
  have h2b : (uncappedOf (1/4 : ℚ) [("A", (3:ℚ)/4), ("B", (1:ℚ)/4)]).isEmpty = false := by
    norm_num [uncappedOf]
  intro n
  induction n with
  | zero =>
    show libCappedLoop (1/4) (0 + 1) _ = _
    rw [libCappedLoop_step 0 h1a h2a, c9aux_lib_body1]
    rfl
  | succ k ih =>
    show libCappedLoop (1/4) ((2 * k + 1) + 1 + 1) _ = _
    rw [libCappedLoop_step ((2 * k + 1) + 1) h1a h2a, c9aux_lib_body1,
      libCappedLoop_step (2 * k + 1) h1b h2b, c9aux_lib_body2, ih]

/-- C9 counterexample: on `{A: 100, B: 0}` with cap 0.25 the script returns
`{A: 1, B: 0}` (it skips redistribution when the uncapped total weight is 0
and renormalizes back each iteration) while the library returns
`{A: 3/4, B: 1/4}` (it distributes the excess equally among the zero-weight
uncapped entries and then oscillates until the iteration bound). -/
theorem claim_C9_counterexample :
    calculateCappedWeights [("A", 100), ("B", 0)] MAX_CONSTITUENT_WEIGHT ≠
      applyWeightCaps ([("A", 100), ("B", 0)].map
        (fun p => (p.1, p.2 / totalW [("A", 100), ("B", 0)]))) MAX_CONSTITUENT_WEIGHT := by
  have hmap : ([("A", (100:ℚ)), ("B", 0)].map
      (fun p => (p.1, p.2 / totalW [("A", (100:ℚ)), ("B", 0)]))) =
      [("A", (1:ℚ)), ("B", 0)] := by
    norm_num [totalW]
  have hscript : calculateCappedWeights [("A", 100), ("B", 0)] MAX_CONSTITUENT_WEIGHT =
      cappedLoop (1/4) MAX_CAPPING_ITERATIONS [("A", (1:ℚ)), ("B", 0)] := by
    norm_num [calculateCappedWeights, totalW, MAX_CONSTITUENT_WEIGHT]
  have h1 : (cappedOf (1/4 : ℚ) [("A", (1:ℚ)), ("B", 0)]).isEmpty = false := by
    norm_num [cappedOf]
  have h2 : (uncappedOf (1/4 : ℚ) [("A", (1:ℚ)), ("B", 0)]).isEmpty = false := by
    norm_num [uncappedOf]
  have hl0 : libCappedLoop (1/4) MAX_CAPPING_ITERATIONS [("A", (1:ℚ)), ("B", 0)] =
      libCappedLoop (1/4) 9 [("A", (1:ℚ)/4), ("B", (3:ℚ)/4)] := by
    have h := @libCappedLoop_step (1/4) [("A", (1:ℚ)), ("B", 0)] 9 h1 h2
    rw [c9aux_lib_body0] at h
    exact h
  have hlib : applyWeightCaps [("A", (1:ℚ)), ("B", 0)] MAX_CONSTITUENT_WEIGHT =
      libCappedLoop (1/4) MAX_CAPPING_ITERATIONS [("A", (1:ℚ)), ("B", 0)] := by
    norm_num [applyWeightCaps, MAX_CONSTITUENT_WEIGHT]
  have hlodd : libCappedLoop (1/4) 9 [("A", (1:ℚ)/4), ("B", (3:ℚ)/4)] =
      [("A", (3:ℚ)/4), ("B", (1:ℚ)/4)] := c9aux_lib_odd 4
  rw [hmap, hscript, hlib, hl0, hlodd, c9aux_script_loop MAX_CAPPING_ITERATIONS]
  norm_num

/-! ## Lemmas: association-list lookups -/

theorem getQ_eq_none_iff (m : QMap) (s : String) :
    getQ m s = none ↔ s ∉ m.map Prod.fst := by
  induction m with
  | nil => simp [getQ]
  | cons p ps ih =>
    by_cases h : p.1 = s
    · simp [getQ, h]
    · rw [getQ, if_neg h, ih]
      simp only [List.map_cons, List.mem_cons]
      constructor
      · intro hn hs
        rcases hs with hs | hs
        · exact h hs.symm
        · exact hn hs
      · intro hn hs
        exact hn (Or.inr hs)

theorem getQ_isSome_of_mem {m : QMap} {s : String} (h : s ∈ m.map Prod.fst) :
    (getQ m s).isSome = true := by
  cases heq : getQ m s with
  | none => exact absurd ((getQ_eq_none_iff m s).1 heq) (not_not_intro h)
  | some v => rfl

theorem getQ_some_mem {m : QMap} {s : String} {v : ℚ} (h : getQ m s = some v) :
    (s, v) ∈ m := by
  induction m with
  | nil => simp [getQ] at h
  | cons p ps ih =>
    rw [getQ] at h
    by_cases hp : p.1 = s
    · rw [if_pos hp] at h
      injection h with h
      have : p = (s, v) := by
        cases p
        simp_all
      rw [← this]
      exact List.mem_cons_self p ps
    · rw [if_neg hp] at h
      exact List.mem_cons_of_mem _ (ih h)

theorem setQ_of_getQ_none {m : QMap} {s : String} (v : ℚ) (h : getQ m s = none) :
    setQ m s v = m ++ [(s, v)] := by
  simp [setQ, h]

/-! ## Lemmas: key preservation through the capping loop -/

theorem map_fst_map_of {f : String × ℚ → String × ℚ}
    (hf : ∀ p, (f p).1 = p.1) (ws : QMap) :
    (ws.map f).map Prod.fst = ws.map Prod.fst := by
  induction ws with
  | nil => rfl
  | cons p ps ih => simp [hf, ih]

theorem capAllStep_keys (mw : ℚ) (ws : QMap) :
    (capAllStep mw ws).map Prod.fst = ws.map Prod.fst := by
  refine map_fst_map_of ?_ ws
  intro p
  by_cases h : mw < p.2 <;> simp [h]

theorem redistributeScript_keys (mw : ℚ) (ws : QMap) :
    (redistributeScript mw ws).map Prod.fst = ws.map Prod.fst := by
  by_cases hU : 0 < totalW (uncappedOf mw ws)
  · rw [redistributeScript_eq_pos hU]
    refine map_fst_map_of ?_ ws
    intro p
    by_cases h : mw < p.2 <;> simp [h]
  · rw [redistributeScript_eq_neg hU]
    exact capAllStep_keys mw ws

theorem normalizeStep_keys (ws : QMap) :
    (normalizeStep ws).map Prod.fst = ws.map Prod.fst := by
  by_cases hc : 1/10000 < |totalW ws - 1|
  · rw [normalizeStep_of_gt hc]
    exact map_fst_map_of (f := fun p => (p.1, p.2 / totalW ws)) (fun p => rfl) ws
  · rw [normalizeStep_of_le (not_lt.1 hc)]

theorem cappedLoop_keys (mw : ℚ) :
    ∀ (fuel : ℕ) (ws : QMap),
      (cappedLoop mw fuel ws).map Prod.fst = ws.map Prod.fst := by
  intro fuel
  induction fuel with
  | zero => intro ws; rfl
  | succ n ih =>
    intro ws
    rw [cappedLoop]
    split_ifs with h1 h2
    · rfl
    · exact capAllStep_keys mw ws
    · rw [ih, normalizeStep_keys, redistributeScript_keys]

theorem calculateCappedWeights_keys {mcs : QMap} (mw : ℚ) (h : totalW mcs ≠ 0) :
    (calculateCappedWeights mcs mw).map Prod.fst = mcs.map Prod.fst := by
  simp only [calculateCappedWeights, if_neg h]
  rw [cappedLoop_keys]
  exact map_fst_map_of (f := fun p => (p.1, p.2 / totalW mcs)) (fun p => rfl) mcs

theorem calculateCappedWeights_pos {mcs : QMap} {mw : ℚ} (hmw : 0 < mw)
    (hpos : ∀ p ∈ mcs, 0 < p.2) (hT : 0 < totalW mcs) :
    ∀ p ∈ calculateCappedWeights mcs mw, 0 < p.2 := by
  simp only [calculateCappedWeights, if_neg (ne_of_gt hT)]
  refine cappedLoop_pos hmw _ _ ?_
  intro p hp
  obtain ⟨q, hq, rfl⟩ := List.mem_map.1 hp
  exact div_pos (hpos q hq) hT

/-! ## Lemmas: the inception maps -/

/-- Invariant of the inception-map construction: both maps carry the same key
list, every recorded price and market cap is positive, and every key belongs
to the configured token list. -/
def BimInv (tokens : List String) (maps : QMap × QMap) : Prop :=
  maps.1.map Prod.fst = maps.2.map Prod.fst ∧
  (∀ p ∈ maps.1, 0 < p.2) ∧ (∀ p ∈ maps.2, 0 < p.2) ∧
  (∀ s ∈ maps.1.map Prod.fst, s ∈ tokens)

theorem bimStep_inv {tokens : List String} {maps : QMap × QMap} (o : Obs)
    (h : BimInv tokens maps) : BimInv tokens (bimStep tokens maps o) := by
  obtain ⟨hk, hp, hm, hsub⟩ := h
  rw [bimStep]
  split_ifs with hc
  · obtain ⟨hmem, _, hpp, hpm⟩ := hc
    refine ⟨by simp [hk], ?_, ?_, ?_⟩
    · intro p hp'
      rcases List.mem_append.1 hp' with h' | h'
      · exact hp p h'
      · simp only [List.mem_singleton] at h'
        rw [h']
        exact hpp
    · intro p hp'
      rcases List.mem_append.1 hp' with h' | h'
      · exact hm p h'
      · simp only [List.mem_singleton] at h'
        rw [h']
        exact hpm
    · intro s hs
      simp only [List.map_append, List.mem_append, List.map_cons, List.map_nil,
        List.mem_singleton] at hs
      rcases hs with h' | h'
      · exact hsub s h'
      · rw [h']
        exact hmem
  · exact ⟨hk, hp, hm, hsub⟩

theorem bim_foldl_inv (tokens : List String) :
    ∀ (obs : List Obs) (maps : QMap × QMap), BimInv tokens maps →
      BimInv tokens (obs.foldl (bimStep tokens) maps) := by
  intro obs
  induction obs with
  | nil => intro maps h; exact h
  | cons o os ih =>
    intro maps h
    exact ih _ (bimStep_inv o h)

theorem buildInceptionMaps_inv (tokens : List String) (obs : List Obs) :
    BimInv tokens (buildInceptionMaps tokens obs) :=
  bim_foldl_inv tokens obs ([], []) ⟨rfl, by simp, by simp, by simp⟩

theorem bimStep_ne_nil {tokens : List String} {maps : QMap × QMap} (o : Obs)
    (h : maps.1 ≠ []) : (bimStep tokens maps o).1 ≠ [] := by
  rw [bimStep]
  split_ifs with hc
  · simp
  · exact h

theorem bim_foldl_ne_nil (tokens : List String) :
    ∀ (obs : List Obs) (maps : QMap × QMap),
      ((∃ o ∈ obs, o.symbol ∈ tokens ∧ 0 < o.price ∧ 0 < o.marketCap) ∨ maps.1 ≠ []) →
      (obs.foldl (bimStep tokens) maps).1 ≠ [] := by
  intro obs
  induction obs with
  | nil =>
    intro maps h
    rcases h with ⟨o, ho, _⟩ | h
    · exact absurd ho (List.not_mem_nil o)
    · exact h
  | cons o os ih =>
    intro maps h
    rcases h with ⟨o', ho', hcond⟩ | h
    · rcases List.mem_cons.1 ho' with rfl | ho'
      · -- the head observation qualifies
        refine ih _ (Or.inr ?_)
        rw [bimStep]
        split_ifs with hc
        · simp
        · -- the insertion was blocked, so the map already holds the key
          obtain ⟨h1, h2, h3⟩ := hcond
          intro hnil
          apply hc
          refine ⟨h1, ?_, h2, h3⟩
          rw [hnil]
          rfl
      · exact ih _ (Or.inl ⟨o', ho', hcond⟩)
    · exact ih _ (Or.inr (bimStep_ne_nil o h))

/-! ## Lemmas: the share-building fold -/

theorem sharesStep_acc2_le (cw pm : QMap) (acc : QMap × ℚ) (t : String) :
    acc.2 ≤ (sharesStep cw pm acc t).2 := by
  rw [sharesStep]
  rcases hcw : getQ cw t with _ | w <;> rcases hpm : getQ pm t with _ | p <;> simp
  split_ifs with hc
  · obtain ⟨_, hp0, hw, hp⟩ := hc
    have : notionalInvestment * w / p * p = notionalInvestment * w := by
      rw [div_mul_cancel₀ _ hp0]
    rw [this]
    simp only []
    have : 0 < notionalInvestment * w := by
      have : (0:ℚ) < notionalInvestment := by norm_num [notionalInvestment]
      positivity
    linarith
  · simp

theorem sharesFold_acc2_mono (cw pm : QMap) :
    ∀ (ts : List String) (acc : QMap × ℚ), acc.2 ≤ (sharesFold cw pm ts acc).2 := by
  intro ts
  induction ts with
  | nil => intro acc; exact le_refl _
  | cons t ts ih =>
    intro acc
    rw [sharesFold, List.foldl_cons]
    exact le_trans (sharesStep_acc2_le cw pm acc t) (ih (sharesStep cw pm acc t))

theorem valSum_append_single (shares pm : QMap) (t : String) (sh p : ℚ)
    (hp : getQ pm t = some p) (hpos : p ≠ 0 ∧ 0 < p) :
    valSum (shares ++ [(t, sh)]) pm = valSum shares pm + sh * p := by
  rw [valSum, valSum, List.foldl_append]
  simp [hp, hpos.1, hpos.2]

theorem sharesFold_valSum (cw pm : QMap) :
    ∀ (ts : List String) (acc : QMap × ℚ), ts.Nodup →
      (∀ s ∈ acc.1.map Prod.fst, s ∉ ts) →
      valSum acc.1 pm = acc.2 →
      valSum (sharesFold cw pm ts acc).1 pm = (sharesFold cw pm ts acc).2 := by
  intro ts
  induction ts with
  | nil => intro acc _ _ h; exact h
  | cons t ts ih =>
    intro acc hnd hkeys hval
    rw [sharesFold, List.foldl_cons]
    have hnd' := (List.nodup_cons.1 hnd).2
    have htmem := (List.nodup_cons.1 hnd).1
    have ht : t ∉ acc.1.map Prod.fst := by
      intro hmem
      exact absurd (List.mem_cons_self t ts) (hkeys t hmem)
    have hnone : getQ acc.1 t = none := (getQ_eq_none_iff acc.1 t).2 ht
    rw [sharesStep]
    rcases hcw : getQ cw t with _ | w <;> rcases hpm : getQ pm t with _ | p
    · exact ih acc hnd' (fun s hs => (hkeys s hs) ∘ List.mem_cons_of_mem t) hval
    · exact ih acc hnd' (fun s hs => (hkeys s hs) ∘ List.mem_cons_of_mem t) hval
    · exact ih acc hnd' (fun s hs => (hkeys s hs) ∘ List.mem_cons_of_mem t) hval
    · simp only []
      split_ifs with hc
      · refine ih _ hnd' ?_ ?_
        · intro s hs
          rw [setQ_of_getQ_none _ hnone] at hs
          simp only [List.map_append, List.mem_append, List.map_cons, List.map_nil,
            List.mem_singleton] at hs
          rcases hs with h' | h'
          · exact (hkeys s h') ∘ List.mem_cons_of_mem t
          · rw [h']
            exact htmem
        · rw [setQ_of_getQ_none _ hnone]
          simp only []
          rw [valSum_append_single acc.1 pm t _ p hpm ⟨hc.2.1, hc.2.2.2⟩, hval]
      · exact ih acc hnd' (fun s hs => (hkeys s hs) ∘ List.mem_cons_of_mem t) hval

/-- If some token has a positive weight and a positive price, the accumulated
inception portfolio value is strictly positive. -/
theorem sharesFold_pos_of_entry (cw pm : QMap) {tokens : List String} {s : String}
    {w p : ℚ} (hs : s ∈ tokens) (hw : getQ cw s = some w) (hp : getQ pm s = some p)
    (hwpos : 0 < w) (hppos : 0 < p) :
    0 < (sharesFold cw pm tokens ([], 0)).2 := by
  obtain ⟨l₁, l₂, hsplit⟩ := List.append_of_mem hs
  have hsf : sharesFold cw pm tokens ([], 0) =
      List.foldl (sharesStep cw pm)
        (sharesStep cw pm (List.foldl (sharesStep cw pm) ([], 0) l₁) s) l₂ := by
    rw [sharesFold]
    rw [congrArg (List.foldl (sharesStep cw pm) ([], 0)) hsplit]
    rw [List.foldl_append, List.foldl_cons]
  rw [hsf]
  have hstep : (sharesStep cw pm (List.foldl (sharesStep cw pm) ([], 0) l₁) s).2 =
      (List.foldl (sharesStep cw pm) ([], 0) l₁).2 +
        notionalInvestment * w / p * p := by
    simp only [sharesStep, hw, hp]
    rw [if_pos ⟨ne_of_gt hwpos, ne_of_gt hppos, hwpos, hppos⟩]
  have h1 : (0:ℚ) ≤ (List.foldl (sharesStep cw pm) ([], 0) l₁).2 :=
    sharesFold_acc2_mono cw pm l₁ ([], 0)
  have hni : (0:ℚ) < notionalInvestment := by norm_num [notionalInvestment]
  have h3 : 0 < (sharesStep cw pm (List.foldl (sharesStep cw pm) ([], 0) l₁) s).2 := by
    rw [hstep, div_mul_cancel₀ _ (ne_of_gt hppos)]
    have : 0 < notionalInvestment * w := mul_pos hni hwpos
    linarith
  exact lt_of_lt_of_le h3 (sharesFold_acc2_mono cw pm l₂ _)

/-! ## Claim theorem: inception round-trip (C1) -/

/-- C1 (confirmed).  Inception round-trip: whenever `calculateInceptionShares`
succeeds (and it does succeed whenever some observed constituent has positive
price and positive market cap), valuing the returned shares at the same
inception price map and dividing by the returned divisor yields *exactly* the
configured base value 1000 — in exact arithmetic the identity is not merely
within 1e-6 relative error but exact.  The `tokens.Nodup` hypothesis reflects
the configured constituent lists, whose symbols are distinct. -/
theorem claim_C1_inception_roundtrip (tokens : List String) (obs : List Obs)
    (hnd : tokens.Nodup) :
    (∀ shares divisor, calculateInceptionShares tokens obs = some (shares, divisor) →
      calculateIndexValuePure shares divisor (buildInceptionMaps tokens obs).1 =
        some INDEX_BASE_VALUE) ∧
    ((∃ o ∈ obs, o.symbol ∈ tokens ∧ 0 < o.price ∧ 0 < o.marketCap) →
      (calculateInceptionShares tokens obs).isSome = true) := by
  constructor
  · intro shares divisor h
    simp only [calculateInceptionShares] at h
    by_cases hie : (buildInceptionMaps tokens obs).2.isEmpty = true
    · rw [if_pos hie] at h
      simp at h
    · rw [if_neg hie] at h
      by_cases hz : (sharesFold
          (calculateCappedWeights (buildInceptionMaps tokens obs).2
            MAX_CONSTITUENT_WEIGHT)
          (buildInceptionMaps tokens obs).1 tokens ([], 0)).2 = 0
      · rw [if_pos hz] at h
        simp at h
      · rw [if_neg hz] at h
        simp only [Option.some.injEq, Prod.mk.injEq] at h
        obtain ⟨hsh, hdv⟩ := h
        have hval := sharesFold_valSum
          (calculateCappedWeights (buildInceptionMaps tokens obs).2
            MAX_CONSTITUENT_WEIGHT)
          (buildInceptionMaps tokens obs).1 tokens ([], 0) hnd (by simp) rfl
        simp only [calculateIndexValuePure, ← hsh, ← hdv, hval]
        rw [if_neg]
        · congr 1
          rw [div_div_eq_mul_div, mul_comm, mul_div_assoc, div_self hz, mul_one]
        · push_neg
          refine ⟨hz, ?_⟩
          exact div_ne_zero hz (by norm_num [INDEX_BASE_VALUE])
  · rintro ⟨o, ho, hotk, hopp, hopm⟩
    obtain ⟨hkeys, hppos, hmpos, hsub⟩ := buildInceptionMaps_inv tokens obs
    have hne1 : (buildInceptionMaps tokens obs).1 ≠ [] :=
      bim_foldl_ne_nil tokens obs ([], []) (Or.inl ⟨o, ho, hotk, hopp, hopm⟩)
    have hnem : (buildInceptionMaps tokens obs).2 ≠ [] := by
      intro hnil
      apply hne1
      have hk : (buildInceptionMaps tokens obs).1.map Prod.fst = [] := by
        rw [hkeys, hnil]
        rfl
      exact List.map_eq_nil_iff.1 hk
    have hTpos : 0 < totalW (buildInceptionMaps tokens obs).2 := totalW_pos hmpos hnem
    obtain ⟨q, hq⟩ := List.exists_mem_of_ne_nil _ hnem
    have hqk : q.1 ∈ (buildInceptionMaps tokens obs).2.map Prod.fst :=
      List.mem_map_of_mem Prod.fst hq
    have hqtk : q.1 ∈ tokens := by
      refine hsub q.1 ?_
      rw [hkeys]
      exact hqk
    have hwk : q.1 ∈ (calculateCappedWeights (buildInceptionMaps tokens obs).2
        MAX_CONSTITUENT_WEIGHT).map Prod.fst := by
      rw [calculateCappedWeights_keys MAX_CONSTITUENT_WEIGHT (ne_of_gt hTpos)]
      exact hqk
    obtain ⟨w, hw⟩ := Option.isSome_iff_exists.1 (getQ_isSome_of_mem hwk)
    have hwpos : 0 < w := calculateCappedWeights_pos
      (by norm_num [MAX_CONSTITUENT_WEIGHT]) hmpos hTpos _ (getQ_some_mem hw)
    have hpk : q.1 ∈ (buildInceptionMaps tokens obs).1.map Prod.fst := by
      rw [hkeys]
      exact hqk
    obtain ⟨p, hp⟩ := Option.isSome_iff_exists.1 (getQ_isSome_of_mem hpk)
    have hppos' : 0 < p := hppos _ (getQ_some_mem hp)
    have hfold : 0 < (sharesFold
        (calculateCappedWeights (buildInceptionMaps tokens obs).2
          MAX_CONSTITUENT_WEIGHT)
        (buildInceptionMaps tokens obs).1 tokens ([], 0)).2 :=
      sharesFold_pos_of_entry _ _ hqtk hw hp hwpos hppos'
    have hie : ¬ (buildInceptionMaps tokens obs).2.isEmpty = true := by
      intro he
      exact hnem (List.isEmpty_iff.1 he)
    simp only [calculateInceptionShares, if_neg hie, if_neg (ne_of_gt hfold)]
    rfl

/-- Witness for C1 at the one-token input `A` with inception price 2 and
market cap 5: the computed shares are 125000, the divisor 250, and valuing
the shares back at the inception prices gives exactly 1000. -/
theorem claim_C1_witness :
    calculateIndexValuePure [("A", (125000 : ℚ))] 250
      (buildInceptionMaps ["A"] [⟨"A", 2, 5⟩]).1 = some INDEX_BASE_VALUE := by
  have heval : calculateInceptionShares ["A"] [⟨"A", 2, 5⟩] =
      some ([("A", (125000 : ℚ))], 250) := by
    have h0 : buildInceptionMaps ["A"] [⟨"A", 2, 5⟩] =
        ([("A", (2:ℚ))], [("A", (5:ℚ))]) := by
      norm_num [buildInceptionMaps, bimStep, getQ]
    have h1 : calculateCappedWeights [("A", (5:ℚ))] MAX_CONSTITUENT_WEIGHT =
        cappedLoop MAX_CONSTITUENT_WEIGHT MAX_CAPPING_ITERATIONS [("A", (1 : ℚ))] := by
      norm_num [calculateCappedWeights, totalW]
    have h2 : cappedLoop MAX_CONSTITUENT_WEIGHT MAX_CAPPING_ITERATIONS [("A", (1 : ℚ))] =
        capAllStep MAX_CONSTITUENT_WEIGHT [("A", (1 : ℚ))] :=
      cappedLoop_break_uncapped_empty 9
        (by norm_num [cappedOf, MAX_CONSTITUENT_WEIGHT])
        (by norm_num [uncappedOf, MAX_CONSTITUENT_WEIGHT])
    have h3 : capAllStep MAX_CONSTITUENT_WEIGHT [("A", (1 : ℚ))] =
        [("A", (1:ℚ)/4)] := by
      norm_num [capAllStep, MAX_CONSTITUENT_WEIGHT]
    simp only [calculateInceptionShares, h0, h1, h2, h3]
    norm_num [sharesFold, sharesStep, getQ, setQ, notionalInvestment, INDEX_BASE_VALUE]
  exact (claim_C1_inception_roundtrip ["A"] [⟨"A", 2, 5⟩] (by simp)).1
    [("A", (125000 : ℚ))] 250 heval

/-! ## Claim theorem: downside deviation (C4) -/

/-- C4 (corrected).  Amended downside deviation: `downsideDeviation`
equals the spec's `sqrt(Σ_{r<t} (r-t)² / n)` (stated here on squares, which
is equivalent since both sides are square roots of nonnegative rationals)
whenever **at least two** returns lie strictly below the threshold; when
fewer than 2 returns lie below the threshold — in particular when exactly one
does — the function returns 0 instead of the formula's value. -/
theorem claim_C4_downside_deviation_amended (returns : List ℚ) (threshold : ℚ) :
    (2 ≤ (returns.filter (fun r => decide (r < threshold))).length →
      downsideDeviationSq returns threshold = specDownsideDeviationSq returns threshold) ∧
    ((returns.filter (fun r => decide (r < threshold))).length < 2 →
      downsideDeviationSq returns threshold = 0) := by
  constructor
  · intro h
    simp only [downsideDeviationSq, specDownsideDeviationSq, if_neg (not_lt.2 h)]
    congr 2
    refine List.map_congr_left ?_
    intro r hr
    have hr' : r < threshold := by
      have := (List.mem_filter.1 hr).2
      simpa using this
    rw [min_eq_left (by linarith : r - threshold ≤ 0)]
  · intro h
    simp only [downsideDeviationSq, if_pos h]

/-- Witness for C4 with two below-threshold returns. -/
theorem claim_C4_witness :
    downsideDeviationSq [-(1:ℚ)/10, -(2:ℚ)/10, (1:ℚ)/10] 0 =
      specDownsideDeviationSq [-(1:ℚ)/10, -(2:ℚ)/10, (1:ℚ)/10] 0 :=
  (claim_C4_downside_deviation_amended [-(1:ℚ)/10, -(2:ℚ)/10, (1:ℚ)/10] 0).1
    (by norm_num)

/-- C4 counterexample: with returns `[-0.1, 0.1]` (exactly one return below
the threshold 0) the code returns 0 while the claimed formula gives
`sqrt(1/200) ≠ 0` (shown on the squares: `0 ≠ 1/200`). -/
theorem claim_C4_counterexample :
    ([-(1:ℚ)/10, (1:ℚ)/10].filter (fun r => decide (r < (0:ℚ)))).length = 1 ∧
    downsideDeviationSq [-(1:ℚ)/10, (1:ℚ)/10] 0 = 0 ∧
    specDownsideDeviationSq [-(1:ℚ)/10, (1:ℚ)/10] 0 = 1/200 := by
  refine ⟨by norm_num, ?_, ?_⟩
  · norm_num [downsideDeviationSq]
  · norm_num [specDownsideDeviationSq]

/-! ## Claim theorem: Sharpe zero-volatility safety (C8) -/

theorem dailyReturns_const {data : List Snap} {c : ℚ} (h : ∀ s ∈ data, s.val = c) :
    ∀ r ∈ calculateDailyReturns data, r = 0 := by
  intro r hr
  rw [calculateDailyReturns] at hr
  split_ifs at hr with hl
  · exact absurd hr (List.not_mem_nil r)
  · obtain ⟨pr, hpr, rfl⟩ := List.mem_map.1 hr
    have h1 : pr.1 ∈ data := (List.of_mem_zip hpr).1
    have h2 : pr.2 ∈ data := List.mem_of_mem_tail (List.of_mem_zip hpr).2
    rw [h pr.1 h1, h pr.2 h2]
    by_cases hc : c = 0
    · simp [hc]
    · simp [hc]

theorem sdSq_zero_of_all_zero {l : List ℚ} (h : ∀ r ∈ l, r = 0) (b : Bool) :
    standardDeviationSq l b = 0 := by
  rw [standardDeviationSq]
  by_cases hl : l.length < 2
  · rw [if_pos hl]
  · rw [if_neg hl]
    have hsq : (l.map (fun v => (v - mean l) ^ 2)).sum = 0 := by
      have hsum : l.sum = 0 := List.sum_eq_zero h
      have hmean : mean l = 0 := by
        rw [mean]
        by_cases h0 : l.length = 0
        · rw [if_pos h0]
        · rw [if_neg h0, hsum, zero_div]
      refine List.sum_eq_zero ?_
      intro x hx
      obtain ⟨v, hv, rfl⟩ := List.mem_map.1 hx
      rw [h v hv, hmean]
      ring
    show (l.map (fun v => (v - mean l) ^ 2)).sum /
        (if b = true then (l.length : ℚ) - 1 else (l.length : ℚ)) = 0
    rw [hsq, zero_div]

theorem sharpe_flat (returns : List ℚ) (rf : ℚ)
    (h : (calculateVolatility returns).annualizedSq = 0) :
    (calculateSharpeMetrics returns rf).ratioSq = 0 ∧
    (calculateSharpeMetrics returns rf).annualizedVolatilitySq = 0 := by
  simp only [calculateSharpeMetrics]
  by_cases h0 : returns.length = 0
  · rw [if_pos h0]
    exact ⟨rfl, rfl⟩
  · rw [if_neg h0, if_pos h]
    exact ⟨rfl, rfl⟩

/-- C8 (confirmed).  Sharpe zero-volatility safety: whenever the annualized
volatility is zero (stated on its square, equivalently), `calculateSharpeRatio`
takes the explicit guard branch and returns ratio exactly 0 — the division by
the volatility is never evaluated, so no NaN or Infinity can arise (in this
exact-arithmetic model every value is a finite rational by construction, and
the guard is what keeps the JS code off the `x/0` path).  Moreover the
returns of a constant-value series make `calculateVolatility` return
annualized volatility 0, and the Sharpe ratio on them is 0. -/
theorem claim_C8_sharpe_zero_volatility (returns : List ℚ) (rf c : ℚ)
    (data : List Snap) :
    ((calculateVolatility returns).annualizedSq = 0 →
      (calculateSharpeMetrics returns rf).ratioSq = 0 ∧
      (calculateSharpeMetrics returns rf).annualizedVolatilitySq = 0) ∧
    ((∀ s ∈ data, s.val = c) →
      (calculateVolatility (calculateDailyReturns data)).annualizedSq = 0 ∧
      (calculateSharpeMetrics (calculateDailyReturns data) rf).ratioSq = 0) := by
  constructor
  · exact sharpe_flat returns rf
  · intro h
    have hz : ∀ r ∈ calculateDailyReturns data, r = 0 := dailyReturns_const h
    have hv : (calculateVolatility (calculateDailyReturns data)).annualizedSq = 0 := by
      rw [calculateVolatility]
      simp only []
      rw [sdSq_zero_of_all_zero hz true, zero_mul]
    exact ⟨hv, (sharpe_flat _ rf hv).1⟩

/-- Witness for C8 on the constant series `[⟨day0, 5⟩, ⟨day1, 5⟩]`. -/
theorem claim_C8_witness :
    (calculateVolatility (calculateDailyReturns [⟨0, 5⟩, ⟨86400000, 5⟩])).annualizedSq = 0 ∧
    (calculateSharpeMetrics (calculateDailyReturns [⟨0, 5⟩, ⟨86400000, 5⟩])
      DEFAULT_RISK_FREE_RATE).ratioSq = 0 :=
  (claim_C8_sharpe_zero_volatility (calculateDailyReturns [⟨0, 5⟩, ⟨86400000, 5⟩])
    DEFAULT_RISK_FREE_RATE 5 [⟨0, 5⟩, ⟨86400000, 5⟩]).2 (by simp)

/-! ## Claim theorem: insufficient-data failure (C7) -/

/-- C7 (confirmed).  `calculateAnalytics` (pure core, with the database reads
passed as explicit snapshot lists) returns a failure result naming the index
and period exactly when the requested window holds fewer than 2 data points;
with 2 or more points it returns a success result whose metric fields are the
(total, possibly degenerate-but-defined) values of the metric functions. -/
theorem claim_C7_insufficient_data (indexName : String) (periodDays : ℤ)
    (indexData btcData ethData : List Snap) (rf : ℚ) :
    ((∃ e n p, calculateAnalyticsPure indexName periodDays indexData btcData ethData rf =
        .failure e n p) ↔ indexData.length < 2) ∧
    (indexData.length < 2 →
      calculateAnalyticsPure indexName periodDays indexData btcData ethData rf =
        .failure ("Insufficient data for " ++ indexName ++ ". Found " ++
          toString indexData.length ++ " data points, need at least 2.")
          indexName periodDays) ∧
    (2 ≤ indexData.length → ∃ rec,
      calculateAnalyticsPure indexName periodDays indexData btcData ethData rf =
        .success rec ∧
      rec.indexName = indexName ∧ rec.periodDays = periodDays ∧
      rec.totalReturn = calculateTotalReturn indexData ∧
      rec.volatility = calculateVolatility (calculateDailyReturns indexData) ∧
      rec.sharpe = calculateSharpeMetrics (calculateDailyReturns indexData) rf ∧
      rec.sortino = calculateSortinoMetrics (calculateDailyReturns indexData) rf ∧
      rec.maxDrawdown = calculateMaxDrawdown indexData) := by
  by_cases h : indexData.length < 2
  · refine ⟨⟨fun _ => h, fun _ => ?_⟩, fun _ => ?_, fun h2 => absurd h2 (by omega)⟩
    · exact ⟨_, _, _, by rw [calculateAnalyticsPure, if_pos h]⟩
    · rw [calculateAnalyticsPure, if_pos h]
  · have h2 : ¬ indexData.length < 2 := h
    refine ⟨⟨?_, fun hlt => absurd hlt h⟩, fun hlt => absurd hlt h, fun _ => ?_⟩
    · rintro ⟨e, n, p, heq⟩
      rw [calculateAnalyticsPure, if_neg h] at heq
      exact absurd heq (by simp)
    · simp only [calculateAnalyticsPure, if_neg h]
      exact ⟨_, rfl, rfl, rfl, rfl, rfl, rfl, rfl, rfl⟩

/-- Witness for C7: a 1-point series fails, a 2-point series succeeds. -/
theorem claim_C7_witness :
    (∃ e n p, calculateAnalyticsPure "X" 30 [⟨0, 100⟩] [] [] DEFAULT_RISK_FREE_RATE =
      .failure e n p) ∧
    (∃ rec, calculateAnalyticsPure "X" 30 [⟨0, 100⟩, ⟨86400000, 110⟩] [] []
        DEFAULT_RISK_FREE_RATE = .success rec ∧ rec.indexName = "X") := by
  constructor
  · exact ((claim_C7_insufficient_data "X" 30 [⟨0, 100⟩] [] []
      DEFAULT_RISK_FREE_RATE).1).2 (by norm_num)
  · obtain ⟨rec, hrec, hname, -⟩ := (claim_C7_insufficient_data "X" 30
      [⟨0, 100⟩, ⟨86400000, 110⟩] [] [] DEFAULT_RISK_FREE_RATE).2.2 (by norm_num)
    exact ⟨rec, hrec, hname⟩

/-! ## Claim theorem: determinism (C10) -/

/-- C10 (confirmed).  Determinism: the valuation and every analytics metric
are pure functions of their explicit inputs — two invocations on equal inputs
give equal (in this model, literally identical) outputs.  In the embedding
the database snapshot each JS function reads is an explicit argument, so there
is no hidden mutable state to depend on; the only impure JS fields
(`calculatedAt`, console logging) are presentation-only and excluded. -/
theorem claim_C10_determinism :
    (∀ (s₁ s₂ : QMap) (d₁ d₂ : ℚ) (pm₁ pm₂ : QMap), s₁ = s₂ → d₁ = d₂ → pm₁ = pm₂ →
      calculateIndexValuePure s₁ d₁ pm₁ = calculateIndexValuePure s₂ d₂ pm₂) ∧
    (∀ (a b : List Snap), a = b → calculateDailyReturns a = calculateDailyReturns b) ∧
    (∀ (r₁ r₂ : List ℚ), r₁ = r₂ → calculateVolatility r₁ = calculateVolatility r₂) ∧
    (∀ (r₁ r₂ : List ℚ) (f₁ f₂ : ℚ), r₁ = r₂ → f₁ = f₂ →
      calculateSharpeMetrics r₁ f₁ = calculateSharpeMetrics r₂ f₂) ∧
    (∀ (r₁ r₂ : List ℚ) (f₁ f₂ : ℚ), r₁ = r₂ → f₁ = f₂ →
      calculateSortinoMetrics r₁ f₁ = calculateSortinoMetrics r₂ f₂) ∧
    (∀ (a b : List Snap), a = b → calculateMaxDrawdown a = calculateMaxDrawdown b) ∧
    (∀ (x₁ x₂ y₁ y₂ : List ℚ), x₁ = x₂ → y₁ = y₂ →
      calculateBeta x₁ y₁ = calculateBeta x₂ y₂) := by
  refine ⟨?_, ?_, ?_, ?_, ?_, ?_, ?_⟩ <;> intros <;> subst_vars <;> rfl

/-- Witness for C10 at concrete inputs. -/
theorem claim_C10_witness :
    calculateIndexValuePure [("A", 1)] 2 [("A", 3)] =
      calculateIndexValuePure [("A", 1)] 2 [("A", 3)] ∧
    calculateVolatility [1/10, -(1:ℚ)/10] = calculateVolatility [1/10, -(1:ℚ)/10] :=
  ⟨claim_C10_determinism.1 [("A", 1)] [("A", 1)] 2 2 [("A", 3)] [("A", 3)] rfl rfl rfl,
   claim_C10_determinism.2.2.1 [1/10, -(1:ℚ)/10] [1/10, -(1:ℚ)/10] rfl⟩

/-! ## Claim theorem: beta / correlation / R² (C6) -/

theorem list_map_sum_eq_range (g : ℚ → ℚ) (v : List ℚ) :
    (v.map g).sum = ∑ i in Finset.range v.length, g (v.getD i 0) := by
  induction v with
  | nil => simp
  | cons a as ih =>
    rw [List.map_cons, List.sum_cons, ih, List.length_cons, Finset.sum_range_succ']
    simp [add_comm]

theorem zip_map_sum_eq_range (f : ℚ → ℚ → ℚ) :
    ∀ (x y : List ℚ), x.length = y.length →
      ((x.zip y).map (fun p => f p.1 p.2)).sum =
        ∑ i in Finset.range x.length, f (x.getD i 0) (y.getD i 0) := by
  intro x
  induction x with
  | nil => intro y _; simp
  | cons a as ih =>
    intro y h
    cases y with
    | nil => simp at h
    | cons b bs =>
      rw [List.zip_cons_cons, List.map_cons, List.sum_cons, ih bs (by simpa using h),
        List.length_cons, Finset.sum_range_succ']
      simp [add_comm]

theorem covariance_eq_spec {x y : List ℚ} (hlen : x.length = y.length)
    (h2 : 2 ≤ x.length) : covariance x y = specSampleCov x y := by
  rw [covariance, specSampleCov, if_neg (by push_neg; exact ⟨hlen, h2⟩)]
  show ((x.zip y).map (fun p => (p.1 - mean x) * (p.2 - mean y))).sum /
      ((x.length : ℚ) - 1) = _
  congr 1
  exact zip_map_sum_eq_range (fun a b => (a - mean x) * (b - mean y)) x y hlen

theorem sdSq_eq_specVar {v : List ℚ} (h2 : 2 ≤ v.length) :
    standardDeviationSq v true = specSampleVar v := by
  rw [standardDeviationSq, if_neg (not_lt.2 h2), specSampleVar]
  show (v.map (fun a => (a - mean v) ^ 2)).sum /
      (if (true : Bool) = true then (v.length : ℚ) - 1 else (v.length : ℚ)) = _
  rw [if_pos rfl]
  congr 1
  exact list_map_sum_eq_range (fun a => (a - mean v) ^ 2) v

theorem varianceQ_eq_spec {v : List ℚ} (h2 : 2 ≤ v.length) :
    varianceQ v = specSampleVar v := by
  rw [varianceQ, if_neg (not_lt.2 h2)]
  exact sdSq_eq_specVar h2

theorem specSampleVar_nonneg {v : List ℚ} (h2 : 2 ≤ v.length) :
    0 ≤ specSampleVar v := by
  refine div_nonneg (Finset.sum_nonneg fun i _ => sq_nonneg _) ?_
  have : (2:ℚ) ≤ (v.length : ℚ) := by exact_mod_cast h2
  linarith

/-- C6 (confirmed).  `calculateBeta` truncates both return lists to the
shorter length; with fewer than 2 common points all fields are 0, and
otherwise the fields equal the spec's sample-covariance / sample-variance
formulas: `beta = cov/benchVar` (0 when the benchmark variance is 0),
`covariance` and `benchmarkVariance` are the sample statistics themselves,
and the squared correlation (`corrSq`, the rational-valued embedding of the
source's `correlation = cov/(σᵢσᵦ)`, which is 0 when either variance — hence
either standard deviation — is 0) coincides with `rSquared = correlation²`. -/
theorem claim_C6_beta (x y : List ℚ) :
    (min x.length y.length < 2 → calculateBeta x y = ⟨0, 0, 0, 0, 0⟩) ∧
    (2 ≤ min x.length y.length →
      calculateBeta x y =
        { beta := if specSampleVar (y.take (min x.length y.length)) = 0 then 0
            else specSampleCov (x.take (min x.length y.length))
                (y.take (min x.length y.length)) /
              specSampleVar (y.take (min x.length y.length))
          corrSq := if specSampleVar (x.take (min x.length y.length)) = 0 ∨
              specSampleVar (y.take (min x.length y.length)) = 0 then 0
            else specSampleCov (x.take (min x.length y.length))
                (y.take (min x.length y.length)) ^ 2 /
              (specSampleVar (x.take (min x.length y.length)) *
                specSampleVar (y.take (min x.length y.length)))
          covariance := specSampleCov (x.take (min x.length y.length))
            (y.take (min x.length y.length))
          benchmarkVariance := specSampleVar (y.take (min x.length y.length))
          rSquared := if specSampleVar (x.take (min x.length y.length)) = 0 ∨
              specSampleVar (y.take (min x.length y.length)) = 0 then 0
            else specSampleCov (x.take (min x.length y.length))
                (y.take (min x.length y.length)) ^ 2 /
              (specSampleVar (x.take (min x.length y.length)) *
                specSampleVar (y.take (min x.length y.length))) }) := by
  have hxlen : (x.take (min x.length y.length)).length = min x.length y.length := by
    rw [List.length_take]
    exact min_eq_left (min_le_left _ _)
  have hylen : (y.take (min x.length y.length)).length = min x.length y.length := by
    rw [List.length_take]
    exact min_eq_left (min_le_right _ _)
  constructor
  · intro h
    rw [calculateBeta, if_pos h]
  · intro h2
    have hx2 : 2 ≤ (x.take (min x.length y.length)).length := by rw [hxlen]; exact h2
    have hy2 : 2 ≤ (y.take (min x.length y.length)).length := by rw [hylen]; exact h2
    have hlen2 : (x.take (min x.length y.length)).length =
        (y.take (min x.length y.length)).length := by rw [hxlen, hylen]
    have hcov : covariance (x.take (min x.length y.length))
          (y.take (min x.length y.length)) =
        specSampleCov (x.take (min x.length y.length))
          (y.take (min x.length y.length)) := covariance_eq_spec hlen2 hx2
    have hvb := varianceQ_eq_spec hy2
    have hvx := varianceQ_eq_spec hx2
    simp only [calculateBeta, if_neg (not_lt.2 h2)]
    by_cases hbv : specSampleVar (y.take (min x.length y.length)) = 0
    · rw [if_pos (by rw [hvb]; exact hbv)]
      simp only [BetaMetrics.mk.injEq]
      refine ⟨?_, ?_, ?_, ?_, ?_⟩
      · rw [if_pos hbv]
      · rw [if_pos (Or.inr hbv)]
      · exact hcov
      · rw [hbv]
      · rw [if_pos (Or.inr hbv)]
    · rw [if_neg (by rw [hvb]; exact hbv)]
      have hbvpos : 0 < specSampleVar (y.take (min x.length y.length)) :=
        lt_of_le_of_ne (specSampleVar_nonneg hy2) (Ne.symm hbv)
      by_cases hiv : specSampleVar (x.take (min x.length y.length)) = 0
      · have hcond : ¬ (0 < varianceQ (x.take (min x.length y.length)) ∧
            0 < varianceQ (y.take (min x.length y.length))) := by
          rw [hvx, hiv]
          simp
        rw [if_neg hcond]
        simp only [BetaMetrics.mk.injEq]
        refine ⟨?_, ?_, ?_, ?_, ?_⟩
        · rw [if_neg hbv, hcov, hvb]
        · rw [if_pos (Or.inl hiv)]
        · exact hcov
        · exact hvb
        · rw [if_pos (Or.inl hiv)]
      · have hivpos : 0 < specSampleVar (x.take (min x.length y.length)) :=
          lt_of_le_of_ne (specSampleVar_nonneg hx2) (Ne.symm hiv)
        have hcond : (0 < varianceQ (x.take (min x.length y.length)) ∧
            0 < varianceQ (y.take (min x.length y.length))) := by
          rw [hvx, hvb]
          exact ⟨hivpos, hbvpos⟩
        rw [if_pos hcond]
        have hnot : ¬ (specSampleVar (x.take (min x.length y.length)) = 0 ∨
            specSampleVar (y.take (min x.length y.length)) = 0) := by
          push_neg
          exact ⟨hiv, hbv⟩
        simp only [BetaMetrics.mk.injEq]
        refine ⟨?_, ?_, ?_, ?_, ?_⟩
        · rw [if_neg hbv, hcov, hvb]
        · rw [if_neg hnot, hcov, hvx, hvb]
        · exact hcov
        · exact hvb
        · rw [if_neg hnot, hcov, hvx, hvb]

/-- Witness for C6 at the spec's beta example: index returns
`[0.02, -0.01, 0.03]` against benchmark returns `[0.03, -0.02, 0.04]`. -/
theorem claim_C6_witness :
    calculateBeta [(2:ℚ)/100, -(1:ℚ)/100, (3:ℚ)/100]
        [(3:ℚ)/100, -(2:ℚ)/100, (4:ℚ)/100] =
      { beta := if specSampleVar ([(3:ℚ)/100, -(2:ℚ)/100, (4:ℚ)/100].take
            (min ([(2:ℚ)/100, -(1:ℚ)/100, (3:ℚ)/100]).length
              ([(3:ℚ)/100, -(2:ℚ)/100, (4:ℚ)/100]).length)) = 0 then 0
          else specSampleCov ([(2:ℚ)/100, -(1:ℚ)/100, (3:ℚ)/100].take
              (min ([(2:ℚ)/100, -(1:ℚ)/100, (3:ℚ)/100]).length
                ([(3:ℚ)/100, -(2:ℚ)/100, (4:ℚ)/100]).length))
              ([(3:ℚ)/100, -(2:ℚ)/100, (4:ℚ)/100].take
              (min ([(2:ℚ)/100, -(1:ℚ)/100, (3:ℚ)/100]).length
                ([(3:ℚ)/100, -(2:ℚ)/100, (4:ℚ)/100]).length)) /
            specSampleVar ([(3:ℚ)/100, -(2:ℚ)/100, (4:ℚ)/100].take
              (min ([(2:ℚ)/100, -(1:ℚ)/100, (3:ℚ)/100]).length
                ([(3:ℚ)/100, -(2:ℚ)/100, (4:ℚ)/100]).length))
        corrSq := if specSampleVar ([(2:ℚ)/100, -(1:ℚ)/100, (3:ℚ)/100].take
              (min ([(2:ℚ)/100, -(1:ℚ)/100, (3:ℚ)/100]).length
                ([(3:ℚ)/100, -(2:ℚ)/100, (4:ℚ)/100]).length)) = 0 ∨
            specSampleVar ([(3:ℚ)/100, -(2:ℚ)/100, (4:ℚ)/100].take
              (min ([(2:ℚ)/100, -(1:ℚ)/100, (3:ℚ)/100]).length
                ([(3:ℚ)/100, -(2:ℚ)/100, (4:ℚ)/100]).length)) = 0 then 0
          else specSampleCov ([(2:ℚ)/100, -(1:ℚ)/100, (3:ℚ)/100].take
              (min ([(2:ℚ)/100, -(1:ℚ)/100, (3:ℚ)/100]).length
                ([(3:ℚ)/100, -(2:ℚ)/100, (4:ℚ)/100]).length))
              ([(3:ℚ)/100, -(2:ℚ)/100, (4:ℚ)/100].take
              (min ([(2:ℚ)/100, -(1:ℚ)/100, (3:ℚ)/100]).length
                ([(3:ℚ)/100, -(2:ℚ)/100, (4:ℚ)/100]).length)) ^ 2 /
            (specSampleVar ([(2:ℚ)/100, -(1:ℚ)/100, (3:ℚ)/100].take
              (min ([(2:ℚ)/100, -(1:ℚ)/100, (3:ℚ)/100]).length
                ([(3:ℚ)/100, -(2:ℚ)/100, (4:ℚ)/100]).length)) *
              specSampleVar ([(3:ℚ)/100, -(2:ℚ)/100, (4:ℚ)/100].take
              (min ([(2:ℚ)/100, -(1:ℚ)/100, (3:ℚ)/100]).length
                ([(3:ℚ)/100, -(2:ℚ)/100, (4:ℚ)/100]).length)))
        covariance := specSampleCov ([(2:ℚ)/100, -(1:ℚ)/100, (3:ℚ)/100].take
            (min ([(2:ℚ)/100, -(1:ℚ)/100, (3:ℚ)/100]).length
              ([(3:ℚ)/100, -(2:ℚ)/100, (4:ℚ)/100]).length))
            ([(3:ℚ)/100, -(2:ℚ)/100, (4:ℚ)/100].take
            (min ([(2:ℚ)/100, -(1:ℚ)/100, (3:ℚ)/100]).length
              ([(3:ℚ)/100, -(2:ℚ)/100, (4:ℚ)/100]).length))
        benchmarkVariance := specSampleVar ([(3:ℚ)/100, -(2:ℚ)/100, (4:ℚ)/100].take
            (min ([(2:ℚ)/100, -(1:ℚ)/100, (3:ℚ)/100]).length
              ([(3:ℚ)/100, -(2:ℚ)/100, (4:ℚ)/100]).length))
        rSquared := if specSampleVar ([(2:ℚ)/100, -(1:ℚ)/100, (3:ℚ)/100].take
              (min ([(2:ℚ)/100, -(1:ℚ)/100, (3:ℚ)/100]).length
                ([(3:ℚ)/100, -(2:ℚ)/100, (4:ℚ)/100]).length)) = 0 ∨
            specSampleVar ([(3:ℚ)/100, -(2:ℚ)/100, (4:ℚ)/100].take
              (min ([(2:ℚ)/100, -(1:ℚ)/100, (3:ℚ)/100]).length
                ([(3:ℚ)/100, -(2:ℚ)/100, (4:ℚ)/100]).length)) = 0 then 0
          else specSampleCov ([(2:ℚ)/100, -(1:ℚ)/100, (3:ℚ)/100].take
              (min ([(2:ℚ)/100, -(1:ℚ)/100, (3:ℚ)/100]).length
                ([(3:ℚ)/100, -(2:ℚ)/100, (4:ℚ)/100]).length))
              ([(3:ℚ)/100, -(2:ℚ)/100, (4:ℚ)/100].take
              (min ([(2:ℚ)/100, -(1:ℚ)/100, (3:ℚ)/100]).length
                ([(3:ℚ)/100, -(2:ℚ)/100, (4:ℚ)/100]).length)) ^ 2 /
            (specSampleVar ([(2:ℚ)/100, -(1:ℚ)/100, (3:ℚ)/100].take
              (min ([(2:ℚ)/100, -(1:ℚ)/100, (3:ℚ)/100]).length
                ([(3:ℚ)/100, -(2:ℚ)/100, (4:ℚ)/100]).length)) *
              specSampleVar ([(3:ℚ)/100, -(2:ℚ)/100, (4:ℚ)/100].take
              (min ([(2:ℚ)/100, -(1:ℚ)/100, (3:ℚ)/100]).length
                ([(3:ℚ)/100, -(2:ℚ)/100, (4:ℚ)/100]).length))) } :=
  (claim_C6_beta [(2:ℚ)/100, -(1:ℚ)/100, (3:ℚ)/100]
    [(3:ℚ)/100, -(2:ℚ)/100, (4:ℚ)/100]).2 (by norm_num)

/-! ## Claim theorem: maximum drawdown (C5) -/

theorem ddAt_zero (data : List Snap) : ddAt data 0 = 0 := by
  simp only [ddAt, runPeak, sub_self, zero_div]

theorem minDD_le (data : List Snap) :
    ∀ k i, i ≤ k → minDD data k ≤ ddAt data i := by
  intro k
  induction k with
  | zero =>
    intro i hi
    rw [Nat.le_zero.1 hi]
    exact min_le_right _ _
  | succ k ih =>
    intro i hi
    rw [minDD]
    rcases Nat.lt_succ_iff_lt_or_eq.1 (Nat.lt_succ_of_le hi) with h | h
    · exact le_trans (min_le_left _ _) (ih i (Nat.lt_succ_iff.1 h))
    · rw [h]
      exact min_le_right _ _

theorem ddAt_argMin (data : List Snap) :
    ∀ k, ddAt data (argMin data k) = minDD data k := by
  intro k
  induction k with
  | zero =>
    show ddAt data (argMin data 0) = minDD data 0
    rw [argMin, minDD, ddAt_zero, min_self]
  | succ k ih =>
    rw [argMin, minDD]
    by_cases h : ddAt data (k + 1) < minDD data k
    · rw [if_pos h, min_eq_right (le_of_lt h)]
    · rw [if_neg h, min_eq_left (not_lt.1 h), ih]

theorem argMin_le (data : List Snap) : ∀ k, argMin data k ≤ k := by
  intro k
  induction k with
  | zero => exact le_refl 0
  | succ k ih =>
    rw [argMin]
    by_cases h : ddAt data (k + 1) < minDD data k
    · rw [if_pos h]
    · rw [if_neg h]
      exact le_trans ih (Nat.le_succ k)

theorem argPeak_le (data : List Snap) : ∀ k, argPeak data k ≤ k := by
  intro k
  induction k with
  | zero => exact le_refl 0
  | succ k ih =>
    rw [argPeak]
    by_cases h : runPeak data k < vAt data (k + 1)
    · rw [if_pos h]
    · rw [if_neg h]
      exact le_trans ih (Nat.le_succ k)

theorem runPeak_is_max (data : List Snap) :
    ∀ k j, j ≤ k → vAt data j ≤ runPeak data k := by
  intro k
  induction k with
  | zero =>
    intro j hj
    rw [Nat.le_zero.1 hj]
    exact le_refl _
  | succ k ih =>
    intro j hj
    rw [runPeak]
    rcases Nat.lt_succ_iff_lt_or_eq.1 (Nat.lt_succ_of_le hj) with h | h
    · exact le_trans (ih j (Nat.lt_succ_iff.1 h)) (le_max_left _ _)
    · rw [h]
      exact le_max_right _ _

theorem vAt_argPeak (data : List Snap) :
    ∀ k, vAt data (argPeak data k) = runPeak data k := by
  intro k
  induction k with
  | zero => rfl
  | succ k ih =>
    rw [argPeak, runPeak]
    by_cases h : runPeak data k < vAt data (k + 1)
    · rw [if_pos h, max_eq_right (le_of_lt h)]
    · rw [if_neg h, max_eq_left (not_lt.1 h), ih]

/-- Full characterization of the drawdown scan state: after processing the
first `k + 1` points, the scan holds the most negative drawdown ratio so far,
the running peak value and first timestamp attaining it, and the recorded
peak/trough data of the first index attaining the most negative ratio. -/
theorem mddFold_eq (d0 : Snap) (tl : List Snap) :
    ∀ k, k < (d0 :: tl).length →
      ((d0 :: tl).take (k + 1)).foldl mddStep
          ⟨0, d0.val, d0.ts, d0.ts, d0.ts, d0.val, d0.val⟩ =
        ⟨minDD (d0 :: tl) k, runPeak (d0 :: tl) k,
         tsAt (d0 :: tl) (argPeak (d0 :: tl) k),
         tsAt (d0 :: tl) (argPeak (d0 :: tl) (argMin (d0 :: tl) k)),
         tsAt (d0 :: tl) (argMin (d0 :: tl) k),
         runPeak (d0 :: tl) (argMin (d0 :: tl) k),
         vAt (d0 :: tl) (argMin (d0 :: tl) k)⟩ := by
  intro k
  induction k with
  | zero =>
    intro _
    have hdd : ddAt (d0 :: tl) 0 = 0 := ddAt_zero _
    show mddStep ⟨0, d0.val, d0.ts, d0.ts, d0.ts, d0.val, d0.val⟩ d0 = _
    rw [mddStep]
    simp only [minDD, argPeak, argMin, hdd, min_self]
    rw [if_neg (lt_irrefl d0.val)]
    simp only [sub_self, zero_div]
    rw [if_neg (lt_irrefl 0)]
    rfl
  | succ k ih =>
    intro hk1
    have hk : k < (d0 :: tl).length := Nat.lt_of_succ_lt hk1
    have hget : (d0 :: tl)[k + 1]? = some ((d0 :: tl).getD (k + 1) default) := by
      cases h : (d0 :: tl)[k + 1]? with
      | none =>
        rw [List.getElem?_eq_none_iff] at h
        omega
      | some x =>
        rw [List.getD_eq_getElem?_getD, h]
        rfl
    have htake : (d0 :: tl).take (k + 1 + 1) =
        (d0 :: tl).take (k + 1) ++ [(d0 :: tl).getD (k + 1) default] := by
      rw [List.take_succ, hget]
      rfl
    rw [htake, List.foldl_append, List.foldl_cons, List.foldl_nil, ih hk]
    have hvpt : ((d0 :: tl).getD (k + 1) default).val = vAt (d0 :: tl) (k + 1) := rfl
    have htpt : ((d0 :: tl).getD (k + 1) default).ts = tsAt (d0 :: tl) (k + 1) := rfl
    simp only [mddStep, hvpt, htpt]
    by_cases hp : runPeak (d0 :: tl) k < vAt (d0 :: tl) (k + 1)
    · rw [if_pos hp]
      have hrp : runPeak (d0 :: tl) (k + 1) = vAt (d0 :: tl) (k + 1) := by
        rw [runPeak, max_eq_right (le_of_lt hp)]
      have hap : argPeak (d0 :: tl) (k + 1) = k + 1 := by
        rw [argPeak, if_pos hp]
      simp only []
      have hddeq : (vAt (d0 :: tl) (k + 1) - vAt (d0 :: tl) (k + 1)) /
          vAt (d0 :: tl) (k + 1) = ddAt (d0 :: tl) (k + 1) := by
        rw [ddAt, hrp]
      rw [hddeq]
      by_cases hd : ddAt (d0 :: tl) (k + 1) < minDD (d0 :: tl) k
      · rw [if_pos hd]
        have hmd : minDD (d0 :: tl) (k + 1) = ddAt (d0 :: tl) (k + 1) := by
          rw [minDD, min_eq_right (le_of_lt hd)]
        have ham : argMin (d0 :: tl) (k + 1) = k + 1 := by
          rw [argMin, if_pos hd]
        rw [hmd, ham, hap, hrp]
      · rw [if_neg hd]
        have hmd : minDD (d0 :: tl) (k + 1) = minDD (d0 :: tl) k := by
          rw [minDD, min_eq_left (not_lt.1 hd)]
        have ham : argMin (d0 :: tl) (k + 1) = argMin (d0 :: tl) k := by
          rw [argMin, if_neg hd]
        rw [hmd, ham, hap, hrp]
    · rw [if_neg hp]
      have hrp : runPeak (d0 :: tl) (k + 1) = runPeak (d0 :: tl) k := by
        rw [runPeak, max_eq_left (not_lt.1 hp)]
      have hap : argPeak (d0 :: tl) (k + 1) = argPeak (d0 :: tl) k := by
        rw [argPeak, if_neg hp]
      simp only []
      have hddeq : (vAt (d0 :: tl) (k + 1) - runPeak (d0 :: tl) k) /
          runPeak (d0 :: tl) k = ddAt (d0 :: tl) (k + 1) := by
        rw [ddAt, hrp]
      rw [hddeq]
      by_cases hd : ddAt (d0 :: tl) (k + 1) < minDD (d0 :: tl) k
      · rw [if_pos hd]
        have hmd : minDD (d0 :: tl) (k + 1) = ddAt (d0 :: tl) (k + 1) := by
          rw [minDD, min_eq_right (le_of_lt hd)]
        have ham : argMin (d0 :: tl) (k + 1) = k + 1 := by
          rw [argMin, if_pos hd]
        rw [hmd, ham, hap, hrp]
      · rw [if_neg hd]
        have hmd : minDD (d0 :: tl) (k + 1) = minDD (d0 :: tl) k := by
          rw [minDD, min_eq_left (not_lt.1 hd)]
        have ham : argMin (d0 :: tl) (k + 1) = argMin (d0 :: tl) k := by
          rw [argMin, if_neg hd]
        rw [hmd, ham, hap, hrp]

/-- C5 (confirmed).  `calculateMaxDrawdown` returns, for a series of at least
2 points: the most negative drawdown ratio `(v[i] - runningPeak[i]) /
runningPeak[i]` (where `runningPeak[i]` is the maximum of `v[0..i]`, witnessed
below by `runPeak_is_max`/`vAt_argPeak`), together with the trough
timestamp/value at the (first) index `m` attaining that minimum, the peak
value `runningPeak[m]` and the timestamp of the (first) index attaining it,
and the day-count duration `round((trough.ts - peak.ts)/day)` between them;
for fewer than 2 points it returns drawdown 0 with null dates; and on the
spec's example series `[100, 110, 90, 95, 120]` at daily timestamps it
returns drawdown `-20/110 = -2/11`, peak day 1 value 110, trough day 2 value
90, duration 1 day. -/
theorem claim_C5_max_drawdown (data : List Snap) :
    (data.length < 2 → calculateMaxDrawdown data = ⟨0, none, none, none, none, none⟩) ∧
    (2 ≤ data.length →
      (calculateMaxDrawdown data).maxDrawdown = minDD data (data.length - 1) ∧
      (∀ i < data.length, (calculateMaxDrawdown data).maxDrawdown ≤ ddAt data i) ∧
      ddAt data (argMin data (data.length - 1)) = (calculateMaxDrawdown data).maxDrawdown ∧
      (calculateMaxDrawdown data).troughDate =
        some (tsAt data (argMin data (data.length - 1))) ∧
      (calculateMaxDrawdown data).troughValue =
        some (vAt data (argMin data (data.length - 1))) ∧
      (calculateMaxDrawdown data).peakValue =
        some (runPeak data (argMin data (data.length - 1))) ∧
      (calculateMaxDrawdown data).peakDate =
        some (tsAt data (argPeak data (argMin data (data.length - 1)))) ∧
      vAt data (argPeak data (argMin data (data.length - 1))) =
        runPeak data (argMin data (data.length - 1)) ∧
      argPeak data (argMin data (data.length - 1)) ≤ argMin data (data.length - 1) ∧
      argMin data (data.length - 1) < data.length ∧
      (∀ j ≤ argMin data (data.length - 1),
        vAt data j ≤ runPeak data (argMin data (data.length - 1))) ∧
      (calculateMaxDrawdown data).drawdownDuration =
        some (jsRound ((tsAt data (argMin data (data.length - 1)) -
          tsAt data (argPeak data (argMin data (data.length - 1)))) / MS_PER_DAY))) ∧
    calculateMaxDrawdown exDrawdownData =
      ⟨-2/11, some 86400000, some 172800000, some 110, some 90, some 1⟩ := by
  refine ⟨?_, ?_, ?_⟩
  · intro h
    rw [calculateMaxDrawdown.eq_def, if_pos h]
  · intro h2
    cases data with
    | nil => simp at h2
    | cons d0 tl =>
      have hlen1 : (d0 :: tl).length - 1 = tl.length := rfl
      have hfold := mddFold_eq d0 tl tl.length (by simp)
      rw [show (d0 :: tl).take (tl.length + 1) = d0 :: tl from by
        rw [show tl.length + 1 = (d0 :: tl).length from rfl, List.take_length]] at hfold
      have hnot : ¬ (d0 :: tl).length < 2 := not_lt.2 h2
      simp only [calculateMaxDrawdown, if_neg hnot, hfold, hlen1]
      refine ⟨?_, ?_, ?_, ?_, ?_, ?_, ?_, ?_, ?_, ?_, ?_, ?_⟩
      · trivial
      · intro i hi
        exact minDD_le (d0 :: tl) tl.length i (by
          have : i < tl.length + 1 := hi
          omega)
      · exact ddAt_argMin (d0 :: tl) tl.length
      · trivial
      · trivial
      · trivial
      · trivial
      · exact vAt_argPeak (d0 :: tl) _
      · exact argPeak_le (d0 :: tl) _
      · exact Nat.lt_succ_of_le (argMin_le (d0 :: tl) tl.length)
      · intro j hj
        exact runPeak_is_max (d0 :: tl) _ j hj
      · trivial
  · norm_num [calculateMaxDrawdown, exDrawdownData, mddStep, jsRound, MS_PER_DAY,
      List.foldl_cons, List.foldl_nil]

/-- Witness for C5 at the spec's example series. -/
theorem claim_C5_witness :
    (calculateMaxDrawdown exDrawdownData).maxDrawdown =
      minDD exDrawdownData (exDrawdownData.length - 1) ∧
    (calculateMaxDrawdown exDrawdownData).troughValue =
      some (vAt exDrawdownData (argMin exDrawdownData (exDrawdownData.length - 1))) := by
  have h := (claim_C5_max_drawdown exDrawdownData).2.1 (by norm_num [exDrawdownData])
  exact ⟨h.1, h.2.2.2.2.1⟩

end CryptoIndex
